import Mathlib

/-! Dynamic_Sentence: a space tokenizer over a growable array of owned strings.

Shallow embedding of `src/dynamic_sentence.c`.

Modelling conventions.

* A `char*` into the caller's text is the list of characters from the pointer
  on, the terminating NUL left implicit: the empty list is a pointer at the
  terminator, `p.tail` is `p + 1`. A NUL character inside the list ends the C
  string there, as it would in memory. A pointer that may be `NULL` is an
  `Option`.
* A heap buffer is the list of all its characters, terminator included.
* `int` is `Int` without a bound: signed overflow is undefined in C and takes a
  text of `2^31 - 1` characters or more.
* `calloc` and `realloc` are taken to succeed; `exit(1)` is the result
  `failure.exit1`, an access the C standard leaves undefined is
  `failure.undefined_behaviour`, and a `while` loop that did not finish within
  the fuel it was given is `failure.out_of_fuel`.
* What the collection holds is stated on values: a slot holds the contents of
  the buffer it points to. Which block is allocated and released when is
  stated on a second embedding of the same functions, in the namespace `Mem`,
  where a pointer is an address into a heap of blocks; the two are tied by the
  count, the capacity and the strings of the returned collection.
-/

namespace DynamicSentence

/-- The end sentinel of C text. -/
def NUL : Char := Char.ofNat 0

/-- The space character, the only delimiter of the tokenizer. -/
def SPACE : Char := Char.ofNat 32

/-- The line feed that `print_sentence` writes last. -/
def NEWLINE : Char := Char.ofNat 10

/-- Ways in which a call does not return normally. -/
inductive failure where
  | exit1
  | undefined_behaviour
  | out_of_fuel
  deriving DecidableEq

/-- A `char*` value held in a slot of the backing array or returned by
`store_word_on_heap`. -/
inductive heap_ptr where
  | null
  | indeterminate
  | buf (chars : List Char)
  deriving DecidableEq

/-- The record `sentence_t`: capacity, count and the backing array. -/
structure sentence_t where
  sentence_size : Int
  num_words : Int
  sentence : List heap_ptr
  deriving DecidableEq

/-- Dereference `*p` of a pointer into the text: the terminator at the end. -/
def deref : List Char → Char
  | [] => NUL
  | c :: _ => c

/-- `calloc(1, sizeof(char)*length)`: a zero-filled buffer. -/
def allocate_for_word (length : Int) : List Char :=
  List.replicate length.toNat NUL

/-- `strncpy(dest, src, n)`: exactly `n` characters are written to `dest`, the
characters of `src` up to its terminator and NUL from then on; the rest of
`dest` is left as it was. The callers here pass a `dest` of more than `n`
characters. -/
def strncpy : List Char → List Char → Nat → List Char
  | dest, _, 0 => dest
  | [], _, _ + 1 => []
  | _ :: dest, src, n + 1 =>
    deref src :: strncpy dest (if deref src = NUL then src else src.tail) n

/-- `store_word_on_heap(word, length)`. -/
def store_word_on_heap (word : Option (List Char)) (length : Int) :
    Except failure heap_ptr :=
  match word with
  | none => .error .exit1
  | some w =>
    if length ≤ 0 then .ok .null
    else
      let new_word := allocate_for_word (length + 1)
      .ok (.buf (strncpy new_word w length.toNat))

/-- `create_sentence()`: a zero-filled record, its array pointer `NULL` (no
slot). -/
def create_sentence : sentence_t :=
  { sentence_size := 0, num_words := 0, sentence := [] }

/-- `create_sentence_struct(number_words_in_sentence)`: the default of 5 slots
for a request of none or fewer, the slots zero-filled by `calloc`. -/
def create_sentence_struct (number_words_in_sentence : Int) : sentence_t :=
  let n := if number_words_in_sentence ≤ 0 then 5 else number_words_in_sentence
  let info_sentence := create_sentence
  { info_sentence with
    sentence := List.replicate n.toNat .null, num_words := 0, sentence_size := n }

/-- First loop of `get_next_word_and_size`: move to the end of the current
word. -/
def skip_word : List Char → List Char
  | [] => []
  | c :: rest =>
    if c = NUL then c :: rest
    else if c ≠ SPACE then skip_word rest
    else c :: rest

/-- Second loop of `get_next_word_and_size`: move to the start of the next
word. -/
def skip_spaces : List Char → List Char
  | [] => []
  | c :: rest =>
    if c = NUL then c :: rest
    else if c = SPACE then skip_spaces rest
    else c :: rest

/-- Third loop of `get_next_word_and_size`: count the characters of the word,
starting from the value `length` has so far. -/
def word_length : List Char → Int → Int
  | [], length => length
  | c :: rest, length =>
    if c = NUL then length
    else if c ≠ SPACE then word_length rest (length + 1)
    else length

/-- `get_next_word_and_size(sentence, &word_ptr, first_word_check)`: the value
left in `word_ptr` and the returned length. -/
def get_next_word_and_size (sentence : Option (List Char)) (first_word_check : Int) :
    Except failure (Option (List Char) × Int) :=
  match sentence with
  | none => .error .exit1
  | some p =>
    let p1 := if first_word_check = 0 then skip_word p else p
    let p2 := skip_spaces p1
    if deref p2 = NUL then .ok (none, 0)
    else .ok (some p2, word_length p2 0)

/-- `realloc(arr, sizeof(char*)*n)`: the old slots are kept, the added ones
hold nothing yet. -/
def realloc (arr : List heap_ptr) (n : Int) : List heap_ptr :=
  arr.take n.toNat ++ List.replicate (n.toNat - arr.length) .indeterminate

/-- The local variables of `allocate_sentence_dynamically` that live across
iterations of its loop. -/
structure loop_state where
  sentence : Option (List Char)
  sentence_data : sentence_t
  first_word_signal : Int
  deriving DecidableEq

/-- The loop condition `sentence && *sentence`. -/
def loop_cond (st : loop_state) : Bool :=
  match st.sentence with
  | none => false
  | some p => decide (deref p ≠ NUL)

/-- The growth step: `sentence_size *= 2` and `realloc` when the array is
full. -/
def grow_if_needed (d : sentence_t) : sentence_t :=
  if d.num_words ≥ d.sentence_size then
    { d with sentence_size := d.sentence_size * 2,
             sentence := realloc d.sentence (d.sentence_size * 2) }
  else d

/-- One iteration of the loop of `allocate_sentence_dynamically`; `none` is the
`break`. -/
def loop_body (st : loop_state) : Except failure (Option loop_state) :=
  match get_next_word_and_size st.sentence st.first_word_signal with
  | .error e => .error e
  | .ok (none, _) => .ok none
  | .ok (some word_ptr_into_sentence, word_size) =>
    match store_word_on_heap (some word_ptr_into_sentence) word_size with
    | .error e => .error e
    | .ok heap_word =>
      let d := grow_if_needed st.sentence_data
      if 0 ≤ d.num_words ∧ d.num_words.toNat < d.sentence.length then
        .ok (some
          { sentence := some word_ptr_into_sentence,
            sentence_data :=
              { d with sentence := d.sentence.set d.num_words.toNat heap_word,
                       num_words := d.num_words + 1 },
            first_word_signal := 0 })
      else .error .undefined_behaviour

/-- The `while` loop of `allocate_sentence_dynamically`, at most `fuel`
iterations. -/
def loop : Nat → loop_state → Except failure sentence_t
  | 0, st => if loop_cond st then .error .out_of_fuel else .ok st.sentence_data
  | fuel + 1, st =>
    if loop_cond st then
      match loop_body st with
      | .error e => .error e
      | .ok none => .ok st.sentence_data
      | .ok (some st2) => loop fuel st2
    else .ok st.sentence_data

/-- The state in which `allocate_sentence_dynamically` enters its loop. -/
def initial_state (s : List Char) : loop_state :=
  { sentence := some s, sentence_data := create_sentence_struct 5, first_word_signal := 1 }

/-- `allocate_sentence_dynamically(sentence)`. The fuel is more than the loop
can use on a text of this length. -/
def allocate_sentence_dynamically (sentence : Option (List Char)) :
    Except failure sentence_t :=
  match sentence with
  | none => .error .exit1
  | some s => loop (s.length + 2) (initial_state s)

/-- What `%s` reads from a heap buffer: the characters before the first NUL;
nothing defined when the buffer holds no NUL. -/
def read_string : List Char → Option (List Char)
  | [] => none
  | c :: rest =>
    if c = NUL then some []
    else match read_string rest with
      | none => none
      | some t => some (c :: t)

/-- The string a slot holds, when it points to a terminated buffer. -/
def stored_string : heap_ptr → Option (List Char)
  | .buf b => read_string b
  | _ => none

/-- The `for` loop of `print_sentence`: `remaining` iterations from index `i`,
each writing `"%s "`. -/
def print_words (d : sentence_t) : Nat → Nat → List Char → Except failure (List Char)
  | 0, _, out => .ok out
  | remaining + 1, i, out =>
    match d.sentence.get? i with
    | none => .error .undefined_behaviour
    | some p =>
      match stored_string p with
      | none => .error .undefined_behaviour
      | some w => print_words d remaining (i + 1) (out ++ w ++ [SPACE])

/-- `print_sentence(sentence_data)`: the characters written to standard
output. -/
def print_sentence (sentence_data : Option sentence_t) : Except failure (List Char) :=
  match sentence_data with
  | none => .error .exit1
  | some d =>
    match print_words d d.num_words.toNat 0 [] with
    | .error e => .error e
    | .ok out => .ok (out ++ [NEWLINE])

/-- The occupied slots of a collection, read as strings. -/
def tokens (d : sentence_t) : List (Option (List Char)) :=
  (d.sentence.take d.num_words.toNat).map stored_string

/-! ## Specification side -/

/-- A character that belongs to a word: neither the terminator nor a space. -/
def is_word_char (c : Char) : Bool := decide (c ≠ NUL) && decide (c ≠ SPACE)

/-- The C string a pointer into the text denotes: the characters before the
first NUL. -/
def c_string (p : List Char) : List Char := p.takeWhile (fun c => decide (c ≠ NUL))

/-- The text split on the space character, the empty pieces removed. -/
def split_words (s : List Char) : List (List Char) :=
  (s.splitOn SPACE).filter (fun w => decide (w ≠ []))

/-- The words of the C string at a pointer. -/
def c_words (p : List Char) : List (List Char) := split_words (c_string p)

/-- The collection after the copy of one more word has been appended. -/
def push_word (d : sentence_t) (w : List Char) : sentence_t :=
  let g := grow_if_needed d
  { g with sentence := g.sentence.set g.num_words.toNat (.buf (w ++ [NUL])),
           num_words := g.num_words + 1 }

/-- The collection invariant: the array has `sentence_size` slots, of which
`num_words` are in use. -/
def well_formed (d : sentence_t) : Prop :=
  d.sentence.length = d.sentence_size.toNat ∧ 0 ≤ d.num_words ∧
    d.num_words ≤ d.sentence_size ∧ 1 ≤ d.sentence_size

instance (d : sentence_t) : Decidable (well_formed d) := by
  unfold well_formed
  infer_instance

/-- The collection after the copies of the given words have been appended in
order. -/
def push_all (d : sentence_t) (ws : List (List Char)) : sentence_t :=
  ws.foldl push_word d

/-- The run of non-space characters that starts at a position, given the text
from that position on and the character before it (a space before the first
position): none when the position holds a space or the end, or when the
character before it is not a space. -/
def run_at (tp : List Char × Char) : Option (List Char) :=
  match tp.1 with
  | [] => none
  | c :: _ =>
    if c ≠ SPACE ∧ tp.2 = SPACE then some (tp.1.takeWhile (fun x => decide (x ≠ SPACE)))
    else none

/-- The maximal runs of non-space characters of a text, left to right: a run
starts at every position that holds a non-space character and is the first
position or follows a space, and it extends to the next space or to the end. -/
def maximal_runs (s : List Char) : List (List Char) :=
  (s.tails.zip (SPACE :: s)).filterMap run_at

/-- The text `w1 sep1 w2 ... sep(n-1) wn`: every word followed by its
separator, the last word by nothing. -/
def separated (ws seps : List (List Char)) : List Char :=
  (List.zipWith (fun w sep => w ++ sep) ws (seps ++ [[]])).flatten

/-- What `print_sentence` writes before the final line feed: every word
followed by one space. -/
def spaced (ws : List (List Char)) : List Char :=
  (ws.map (fun w => w ++ [SPACE])).flatten

/-- The state of the loop of `allocate_sentence_dynamically` after `k` full
iterations from `st`; none when the loop has ended before. -/
def state_after : Nat → loop_state → Option loop_state
  | 0, st => some st
  | k + 1, st =>
    if loop_cond st then
      match loop_body st with
      | .ok (some st2) => state_after k st2
      | _ => none
    else none

/-- A slot value that points to a terminated string: not out of the array,
not `NULL`, not indeterminate. -/
def holds_string (p : Option heap_ptr) : Bool :=
  match p with
  | some (.buf b) => (read_string b).isSome
  | _ => false

/-- The collection invariant: the count lies between 0 and the capacity, the
capacity is at least 1 and is the number of slots of the array, and every slot
below the count points to a terminated string. -/
def collection_invariant (d : sentence_t) : Prop :=
  0 ≤ d.num_words ∧ d.num_words ≤ d.sentence_size ∧ 1 ≤ d.sentence_size ∧
    d.sentence.length = d.sentence_size.toNat ∧
    ∀ i : Nat, i < d.num_words.toNat → holds_string (d.sentence.get? i) = true

instance (d : sentence_t) : Decidable (collection_invariant d) := by
  unfold collection_invariant
  infer_instance

/-! ## The heap: the same functions with addresses, for ownership -/

namespace Mem

/-- A pointer into the heap. -/
inductive ptr where
  | null
  | indeterminate
  | addr (a : Nat)
  deriving DecidableEq

/-- An allocated block: the buffer of a word, the backing array of `char*`
slots, or the record `sentence_t`. -/
inductive block where
  | chars (buf : List Char)
  | slots (arr : List ptr)
  | record (sentence_size num_words : Int) (sentence : ptr)
  deriving DecidableEq

/-- The heap: the blocks by address, none for a released block, and the
addresses passed to `free` so far, in order. A fresh address is the number of
cells. -/
structure heap where
  cells : List (Option block)
  frees : List Nat
  deriving DecidableEq

/-- The live block at an address, if any. -/
def lookup (h : heap) (a : Nat) : Option block :=
  h.cells.getD a none

/-- A successful `calloc` or `malloc`: a new block at a fresh address. -/
def alloc (h : heap) (b : block) : ptr × heap :=
  (.addr h.cells.length, { h with cells := h.cells ++ [some b] })

/-- A write to the block at an address. -/
def store (h : heap) (a : Nat) (b : block) : heap :=
  { h with cells := h.cells.set a (some b) }

/-- The release of the block at an address. -/
def release (h : heap) (a : Nat) : heap :=
  { h with cells := h.cells.set a none }

/-- `free(p)`: nothing for `NULL`, undefined for a pointer that is not the
address of a live block (a second `free` of one block included). -/
def free (h : heap) (p : ptr) : Except failure heap :=
  match p with
  | .null => .ok h
  | .indeterminate => .error .undefined_behaviour
  | .addr a =>
    match lookup h a with
    | none => .error .undefined_behaviour
    | some _ => .ok { cells := h.cells.set a none, frees := h.frees ++ [a] }

/-- `realloc(p, sizeof(char*)*n)` on an array of slots: the old slots are kept,
the added ones hold nothing yet; the array stays where it is or moves to a
fresh address, the old block being released, as `moves` says. -/
def realloc (h : heap) (p : ptr) (n : Int) (moves : Bool) : Except failure (ptr × heap) :=
  match p with
  | .null => .ok (alloc h (.slots (List.replicate n.toNat .indeterminate)))
  | .indeterminate => .error .undefined_behaviour
  | .addr a =>
    match lookup h a with
    | some (.slots arr) =>
      if moves then
        .ok ((alloc h (.slots (arr.take n.toNat ++
              List.replicate (n.toNat - arr.length) .indeterminate))).1,
          release (alloc h (.slots (arr.take n.toNat ++
              List.replicate (n.toNat - arr.length) .indeterminate))).2 a)
      else
        .ok (.addr a, store h a (.slots (arr.take n.toNat ++
              List.replicate (n.toNat - arr.length) .indeterminate)))
    | _ => .error .undefined_behaviour

/-- The fields of a record. -/
structure fields where
  sentence_size : Int
  num_words : Int
  sentence : ptr
  deriving DecidableEq

/-- The fields read through a `sentence_t*`. -/
def read_record (h : heap) (p : ptr) : Except failure fields :=
  match p with
  | .addr a =>
    match lookup h a with
    | some (.record size num arr) => .ok ⟨size, num, arr⟩
    | _ => .error .undefined_behaviour
  | _ => .error .undefined_behaviour

/-- The assignment `p->sentence_size = v`. -/
def set_sentence_size (h : heap) (p : ptr) (v : Int) : Except failure heap :=
  match p with
  | .addr a =>
    match lookup h a with
    | some (.record _ num arr) => .ok (store h a (.record v num arr))
    | _ => .error .undefined_behaviour
  | _ => .error .undefined_behaviour

/-- The assignment `p->num_words = v`. -/
def set_num_words (h : heap) (p : ptr) (v : Int) : Except failure heap :=
  match p with
  | .addr a =>
    match lookup h a with
    | some (.record size _ arr) => .ok (store h a (.record size v arr))
    | _ => .error .undefined_behaviour
  | _ => .error .undefined_behaviour

/-- The assignment `p->sentence = v`. -/
def set_sentence (h : heap) (p : ptr) (v : ptr) : Except failure heap :=
  match p with
  | .addr a =>
    match lookup h a with
    | some (.record size num _) => .ok (store h a (.record size num v))
    | _ => .error .undefined_behaviour
  | _ => .error .undefined_behaviour

/-- The read `arr[i]` of a slot. -/
def read_slot (h : heap) (arr : ptr) (i : Int) : Except failure ptr :=
  match arr with
  | .addr a =>
    match lookup h a with
    | some (.slots sl) =>
      if 0 ≤ i then
        match sl.get? i.toNat with
        | some p => .ok p
        | none => .error .undefined_behaviour
      else .error .undefined_behaviour
    | _ => .error .undefined_behaviour
  | _ => .error .undefined_behaviour

/-- The assignment `arr[i] = v` to a slot. -/
def write_slot (h : heap) (arr : ptr) (i : Int) (v : ptr) : Except failure heap :=
  match arr with
  | .addr a =>
    match lookup h a with
    | some (.slots sl) =>
      if 0 ≤ i ∧ i.toNat < sl.length then .ok (store h a (.slots (sl.set i.toNat v)))
      else .error .undefined_behaviour
    | _ => .error .undefined_behaviour
  | _ => .error .undefined_behaviour

/-- A write through a `char*` to the whole buffer it points to. -/
def modify_chars (h : heap) (p : ptr) (f : List Char → List Char) : Except failure heap :=
  match p with
  | .addr a =>
    match lookup h a with
    | some (.chars buf) => .ok (store h a (.chars (f buf)))
    | _ => .error .undefined_behaviour
  | _ => .error .undefined_behaviour

/-- `allocate_for_word(length)`. -/
def allocate_for_word (h : heap) (length : Int) : ptr × heap :=
  alloc h (.chars (List.replicate length.toNat NUL))

/-- `store_word_on_heap(word, length)`. -/
def store_word_on_heap (h : heap) (word : Option (List Char)) (length : Int) :
    Except failure (ptr × heap) :=
  match word with
  | none => .error .exit1
  | some w =>
    if length ≤ 0 then .ok (.null, h)
    else
      match modify_chars (allocate_for_word h (length + 1)).2
          (allocate_for_word h (length + 1)).1 (fun buf => strncpy buf w length.toNat) with
      | .error e => .error e
      | .ok h2 => .ok ((allocate_for_word h (length + 1)).1, h2)

/-- `create_sentence()`. -/
def create_sentence (h : heap) : ptr × heap :=
  alloc h (.record 0 0 .null)

/-- `create_sentence_struct(number_words_in_sentence)`. -/
def create_sentence_struct (h : heap) (number_words_in_sentence : Int) :
    Except failure (ptr × heap) :=
  match set_sentence
      (alloc (create_sentence h).2 (.slots (List.replicate
        (if number_words_in_sentence ≤ 0 then 5 else number_words_in_sentence).toNat
        .null))).2
      (create_sentence h).1
      (alloc (create_sentence h).2 (.slots (List.replicate
        (if number_words_in_sentence ≤ 0 then 5 else number_words_in_sentence).toNat
        .null))).1 with
  | .error e => .error e
  | .ok h3 =>
    match set_num_words h3 (create_sentence h).1 0 with
    | .error e => .error e
    | .ok h4 =>
      match set_sentence_size h4 (create_sentence h).1
          (if number_words_in_sentence ≤ 0 then 5 else number_words_in_sentence) with
      | .error e => .error e
      | .ok h5 => .ok ((create_sentence h).1, h5)

/-- The growth step of the loop: `sentence_size *= 2`, `realloc`, and the new
array pointer stored in the record. -/
def grow (moves : Bool) (h : heap) (sentence_data : ptr) : Except failure heap :=
  match read_record h sentence_data with
  | .error e => .error e
  | .ok d =>
    match set_sentence_size h sentence_data (d.sentence_size * 2) with
    | .error e => .error e
    | .ok h1 =>
      match read_record h1 sentence_data with
      | .error e => .error e
      | .ok d1 =>
        match realloc h1 d1.sentence d1.sentence_size moves with
        | .error e => .error e
        | .ok r => set_sentence r.2 sentence_data r.1

/-- The last three statements on the collection in an iteration: the word is
stored in slot `num_words` and `num_words` is incremented. -/
def append (h : heap) (sentence_data : ptr) (heap_word : ptr) : Except failure heap :=
  match read_record h sentence_data with
  | .error e => .error e
  | .ok d =>
    match write_slot h d.sentence d.num_words heap_word with
    | .error e => .error e
    | .ok h1 =>
      match read_record h1 sentence_data with
      | .error e => .error e
      | .ok d1 => set_num_words h1 sentence_data (d1.num_words + 1)

/-- One iteration of the loop of `allocate_sentence_dynamically`; none is the
`break`, otherwise the heap and the new value of `sentence`. -/
def loop_body (moves : Nat → Bool) (h : heap) (sentence : Option (List Char))
    (sentence_data : ptr) (first_word_signal : Int) :
    Except failure (Option (heap × Option (List Char))) :=
  match get_next_word_and_size sentence first_word_signal with
  | .error e => .error e
  | .ok (none, _) => .ok none
  | .ok (some word_ptr_into_sentence, word_size) =>
    match store_word_on_heap h (some word_ptr_into_sentence) word_size with
    | .error e => .error e
    | .ok w =>
      match read_record w.2 sentence_data with
      | .error e => .error e
      | .ok d =>
        match (if d.num_words ≥ d.sentence_size
            then grow (moves w.2.cells.length) w.2 sentence_data else .ok w.2) with
        | .error e => .error e
        | .ok h2 =>
          match append h2 sentence_data w.1 with
          | .error e => .error e
          | .ok h3 => .ok (some (h3, some word_ptr_into_sentence))

/-- The loop condition `sentence && *sentence`. -/
def loop_cond (sentence : Option (List Char)) : Bool :=
  match sentence with
  | none => false
  | some p => decide (deref p ≠ NUL)

/-- The `while` loop of `allocate_sentence_dynamically`, at most `fuel`
iterations. -/
def loop (moves : Nat → Bool) (sentence_data : ptr) :
    Nat → heap → Option (List Char) → Int → Except failure heap
  | 0, h, sentence, _ =>
    if loop_cond sentence then .error .out_of_fuel else .ok h
  | fuel + 1, h, sentence, first_word_signal =>
    if loop_cond sentence then
      match loop_body moves h sentence sentence_data first_word_signal with
      | .error e => .error e
      | .ok none => .ok h
      | .ok (some r) => loop moves sentence_data fuel r.1 r.2 0
    else .ok h

/-- `allocate_sentence_dynamically(sentence)`: the pointer to the record and
the heap it leaves. -/
def allocate_sentence_dynamically (moves : Nat → Bool) (h : heap)
    (sentence : Option (List Char)) : Except failure (ptr × heap) :=
  match sentence with
  | none => .error .exit1
  | some s =>
    match create_sentence_struct h 5 with
    | .error e => .error e
    | .ok r =>
      match loop moves r.1 (s.length + 2) r.2 (some s) 1 with
      | .error e => .error e
      | .ok h2 => .ok (r.1, h2)

/-- The `for` loop of `free_sentence_struct` from index `i` on, at most `fuel`
tests of its condition. -/
def free_words (sentence : ptr) : Nat → heap → Int → Except failure heap
  | 0, _, _ => .error .out_of_fuel
  | fuel + 1, h, i =>
    match read_record h sentence with
    | .error e => .error e
    | .ok d =>
      if i < d.num_words then
        match read_slot h d.sentence i with
        | .error e => .error e
        | .ok p =>
          match free h p with
          | .error e => .error e
          | .ok h1 => free_words sentence fuel h1 (i + 1)
      else .ok h

/-- `free_sentence_struct(sentence)`. The fuel is one more than the count the
record holds on entry. -/
def free_sentence_struct (h : heap) (sentence : ptr) : Except failure heap :=
  match read_record h sentence with
  | .error e => .error e
  | .ok d0 =>
    match free_words sentence (d0.num_words.toNat + 1) h 0 with
    | .error e => .error e
    | .ok h1 =>
      match read_record h1 sentence with
      | .error e => .error e
      | .ok d =>
        match free h1 d.sentence with
        | .error e => .error e
        | .ok h2 => free h2 sentence

/-- The heap `h` holds a collection built since the heap was `h0`: the record
at `r` with capacity `size`, count `num` and the array at `arr`; the array
holds the addresses `ws` of the word buffers, whose strings are `words`, then
the unused slots `rest`; the word buffers are distinct blocks; nothing else
allocated since `h0` is live, but for the blocks at `extra`; the blocks of `h0`
are as they were and `free` has not been called. -/
structure owns (h0 h : heap) (r arr : Nat) (size num : Int) (ws : List Nat)
    (words : List (List Char)) (rest : List ptr) (extra : List Nat) : Prop where
  record_block : lookup h r = some (.record size num (.addr arr))
  array_block : lookup h arr = some (.slots (ws.map .addr ++ rest))
  unused : ∀ p ∈ rest, p = .null ∨ p = .indeterminate
  capacity : ws.length + rest.length = size.toNat
  count : (ws.length : Int) = num
  positive : 1 ≤ size
  strings : List.Forall₂ (fun a w => lookup h a = some (.chars (w ++ [NUL]))) ws words
  distinct : ws.Nodup
  no_other : ∀ a, h0.cells.length ≤ a → lookup h a ≠ none →
    a = r ∨ a = arr ∨ a ∈ ws ∨ a ∈ extra
  fresh : h0.cells.length ≤ r ∧ h0.cells.length ≤ arr ∧ ∀ a ∈ ws, h0.cells.length ≤ a
  old : ∀ a, a < h0.cells.length → lookup h a = lookup h0 a
  frees_eq : h.frees = h0.frees

end Mem

/-! ## The scanning loops as list operations -/

theorem NUL_ne_SPACE : NUL ≠ SPACE := by decide

theorem skip_word_eq (p : List Char) : skip_word p = p.dropWhile is_word_char := by
  induction p with
  | nil => rfl
  | cons c r ih =>
    by_cases h0 : c = NUL
    · simp [skip_word, is_word_char, h0, List.dropWhile_cons]
    · by_cases h1 : c = SPACE
      · simp [skip_word, is_word_char, h0, h1, List.dropWhile_cons]
      · simp [skip_word, is_word_char, h0, h1, List.dropWhile_cons, ih]

theorem skip_spaces_eq (p : List Char) :
    skip_spaces p = p.dropWhile (fun c => decide (c = SPACE)) := by
  induction p with
  | nil => rfl
  | cons c r ih =>
    by_cases h0 : c = NUL
    · have : c ≠ SPACE := by rw [h0]; exact NUL_ne_SPACE
      simp [skip_spaces, h0, List.dropWhile_cons, NUL_ne_SPACE]
    · by_cases h1 : c = SPACE
      · simp [skip_spaces, h0, h1, List.dropWhile_cons, ih]
        intro h; exact absurd h.symm NUL_ne_SPACE
      · simp [skip_spaces, h0, h1, List.dropWhile_cons]

theorem word_length_eq (p : List Char) (n : Int) :
    word_length p n = n + ((p.takeWhile is_word_char).length : Int) := by
  induction p generalizing n with
  | nil => simp [word_length]
  | cons c r ih =>
    by_cases h0 : c = NUL
    · simp [word_length, is_word_char, h0, List.takeWhile_cons]
    · by_cases h1 : c = SPACE
      · simp [word_length, is_word_char, h0, h1, List.takeWhile_cons]
      · simp [word_length, is_word_char, h0, h1, List.takeWhile_cons, ih]
        omega

theorem strncpy_word (p : List Char) :
    strncpy (List.replicate ((p.takeWhile is_word_char).length + 1) NUL) p
      (p.takeWhile is_word_char).length = p.takeWhile is_word_char ++ [NUL] := by
  induction p with
  | nil => rfl
  | cons c r ih =>
    by_cases h : is_word_char c = true
    · have h0 : c ≠ NUL := by
        intro e; simp [is_word_char, e] at h
      simp only [List.takeWhile_cons, h, if_true, List.length_cons, List.replicate_succ,
        strncpy, deref, h0, if_false, List.tail_cons, List.cons_append]
      rw [← List.replicate_succ, ih]
    · simp [List.takeWhile_cons, h, strncpy]

theorem read_string_word (w : List Char) (h : ∀ c ∈ w, c ≠ NUL) :
    read_string (w ++ [NUL]) = some w := by
  induction w with
  | nil => simp [read_string]
  | cons c r ih =>
    have hc : c ≠ NUL := h c (List.mem_cons_self _ _)
    have hr : ∀ x ∈ r, x ≠ NUL := fun x hx => h x (List.mem_cons_of_mem _ hx)
    simp [read_string, hc, ih hr]

/-! ## Splitting on the space character -/

theorem split_words_nil : split_words [] = [] := by
  simp [split_words, List.splitOn]

theorem split_words_space (r : List Char) : split_words (SPACE :: r) = split_words r := by
  simp [split_words, List.splitOn, List.splitOnP_cons]

theorem split_words_single (a : List Char) (ha : ∀ x ∈ a, x ≠ SPACE) :
    split_words a = if a = [] then [] else [a] := by
  have h : ∀ x ∈ a, ¬ ((x == SPACE) = true) := by
    intro x hx; simpa using ha x hx
  simp only [split_words, List.splitOn]
  rw [List.splitOnP_eq_single _ _ h]
  by_cases he : a = []
  · simp [he]
  · simp [he]

theorem split_words_first (a r : List Char) (ha : ∀ x ∈ a, x ≠ SPACE) :
    split_words (a ++ SPACE :: r) = (if a = [] then [] else [a]) ++ split_words r := by
  have h : ∀ x ∈ a, ¬ ((x == SPACE) = true) := by
    intro x hx; simpa using ha x hx
  simp only [split_words, List.splitOn]
  rw [List.splitOnP_first _ _ h SPACE (by simp)]
  by_cases he : a = []
  · simp [he]
  · simp [he]

theorem split_words_take_drop (s : List Char) :
    split_words s =
      (if s.takeWhile (fun c => decide (c ≠ SPACE)) = [] then []
        else [s.takeWhile (fun c => decide (c ≠ SPACE))]) ++
      split_words (s.dropWhile (fun c => decide (c ≠ SPACE))) := by
  have hs : s.takeWhile (fun c => decide (c ≠ SPACE)) ++
      s.dropWhile (fun c => decide (c ≠ SPACE)) = s := List.takeWhile_append_dropWhile _ s
  have ha : ∀ x ∈ s.takeWhile (fun c => decide (c ≠ SPACE)), x ≠ SPACE := by
    intro x hx
    have := List.mem_takeWhile_imp hx
    simpa using this
  have hd : ∀ x r, s.dropWhile (fun c => decide (c ≠ SPACE)) = x :: r → x = SPACE := by
    intro x r hb
    have := List.head_dropWhile_not (fun c => decide (c ≠ SPACE)) s (by rw [hb]; simp)
    simp only [hb, List.head_cons] at this
    simpa using this
  generalize s.takeWhile (fun c => decide (c ≠ SPACE)) = a at hs ha
  generalize s.dropWhile (fun c => decide (c ≠ SPACE)) = b at hs hd
  subst hs
  cases b with
  | nil => rw [List.append_nil, split_words_nil, List.append_nil]; exact split_words_single a ha
  | cons x r =>
    rw [hd x r rfl, split_words_space]
    exact split_words_first a r ha

theorem split_words_cons (c : Char) (r : List Char) (h : c ≠ SPACE) :
    split_words (c :: r) =
      (c :: r.takeWhile (fun c => decide (c ≠ SPACE))) ::
        split_words (r.dropWhile (fun c => decide (c ≠ SPACE))) := by
  rw [split_words_take_drop]
  simp [List.takeWhile_cons, List.dropWhile_cons, h]

theorem c_words_nil : c_words [] = [] := by
  simp [c_words, c_string, split_words_nil]

theorem c_words_NUL (r : List Char) : c_words (NUL :: r) = [] := by
  simp [c_words, c_string, split_words_nil]

theorem c_words_SPACE (r : List Char) : c_words (SPACE :: r) = c_words r := by
  have h : SPACE ≠ NUL := fun e => NUL_ne_SPACE e.symm
  simp [c_words, c_string, List.takeWhile_cons, h, split_words_space]

theorem take_word_char (r : List Char) :
    (c_string r).takeWhile (fun c => decide (c ≠ SPACE)) = r.takeWhile is_word_char := by
  induction r with
  | nil => rfl
  | cons x t ih =>
    unfold c_string at ih ⊢
    by_cases h0 : x = NUL
    · simp [List.takeWhile_cons, is_word_char, h0]
    · by_cases h1 : x = SPACE
      · subst h1
        simp [List.takeWhile_cons, is_word_char, h0]
      · simp only [List.takeWhile_cons, is_word_char, h0, h1, ne_eq, not_false_eq_true,
          decide_True, Bool.and_self, if_true]
        rw [← ih]

theorem drop_word_char (r : List Char) :
    (c_string r).dropWhile (fun c => decide (c ≠ SPACE)) = c_string (r.dropWhile is_word_char) := by
  induction r with
  | nil => rfl
  | cons x t ih =>
    unfold c_string at ih ⊢
    by_cases h0 : x = NUL
    · simp [List.takeWhile_cons, List.dropWhile_cons, is_word_char, h0]
    · by_cases h1 : x = SPACE
      · subst h1
        simp [List.takeWhile_cons, List.dropWhile_cons, is_word_char, h0]
      · simp only [List.takeWhile_cons, List.dropWhile_cons, is_word_char, h0, h1, ne_eq,
          not_false_eq_true, decide_True, Bool.and_self, if_true]
        rw [← ih]

theorem c_words_cons (c : Char) (r : List Char) (h : is_word_char c = true) :
    c_words (c :: r) =
      (c :: r.takeWhile is_word_char) :: c_words (r.dropWhile is_word_char) := by
  have h0 : c ≠ NUL := by intro e; simp [is_word_char, e] at h
  have h1 : c ≠ SPACE := by intro e; simp [is_word_char, e] at h
  have hc : c_string (c :: r) = c :: c_string r := by
    simp [c_string, List.takeWhile_cons, h0]
  unfold c_words
  rw [hc, split_words_cons c _ h1, take_word_char, drop_word_char]

theorem c_words_skip_spaces (p : List Char) : c_words (skip_spaces p) = c_words p := by
  induction p with
  | nil => rfl
  | cons c r ih =>
    by_cases h0 : c = NUL
    · simp [skip_spaces, h0]
    · by_cases h1 : c = SPACE
      · subst h1
        simp [skip_spaces, h0, ih, c_words_SPACE]
      · simp [skip_spaces, h0, h1]

theorem c_words_of_deref_NUL (q : List Char) (h : deref q = NUL) : c_words q = [] := by
  cases q with
  | nil => exact c_words_nil
  | cons c r =>
    simp only [deref] at h
    subst h
    exact c_words_NUL r

theorem skip_spaces_word_start (p : List Char) (h : deref (skip_spaces p) ≠ NUL) :
    ∃ c r, skip_spaces p = c :: r ∧ is_word_char c = true := by
  induction p with
  | nil => simp [skip_spaces, deref] at h
  | cons c r ih =>
    by_cases h0 : c = NUL
    · simp [skip_spaces, h0, deref] at h
    · by_cases h1 : c = SPACE
      · simp only [skip_spaces, h0, h1, if_true, if_false] at h ⊢
        exact ih h
      · exact ⟨c, r, by simp [skip_spaces, h0, h1], by simp [is_word_char, h0, h1]⟩

/-! ## The loop of allocate_sentence_dynamically -/

theorem grow_if_needed_bound (d : sentence_t) (h : well_formed d) :
    (grow_if_needed d).num_words = d.num_words ∧
    (grow_if_needed d).num_words.toNat < (grow_if_needed d).sentence.length := by
  obtain ⟨hl, h0, h1, h2⟩ := h
  unfold grow_if_needed
  split
  · simp only [realloc, List.length_append, List.length_take, List.length_replicate, true_and]
    omega
  · simp only [true_and]
    omega

theorem get_next_word_and_size_eq (p : List Char) (f : Int) :
    get_next_word_and_size (some p) f =
      if deref (skip_spaces (if f = 0 then skip_word p else p)) = NUL then .ok (none, 0)
      else .ok (some (skip_spaces (if f = 0 then skip_word p else p)),
        (((skip_spaces (if f = 0 then skip_word p else p)).takeWhile is_word_char).length : Int)) := by
  simp only [get_next_word_and_size, word_length_eq, zero_add]

theorem loop_body_break (p : List Char) (d : sentence_t) (f : Int)
    (hq : deref (skip_spaces (if f = 0 then skip_word p else p)) = NUL) :
    loop_body ⟨some p, d, f⟩ = .ok none := by
  simp only [loop_body, get_next_word_and_size_eq, hq, if_true]

theorem loop_body_word (p : List Char) (d : sentence_t) (f : Int) (hd : well_formed d)
    (hq : deref (skip_spaces (if f = 0 then skip_word p else p)) ≠ NUL) :
    loop_body ⟨some p, d, f⟩ = .ok (some
      ⟨some (skip_spaces (if f = 0 then skip_word p else p)),
       push_word d ((skip_spaces (if f = 0 then skip_word p else p)).takeWhile is_word_char),
       0⟩) := by
  obtain ⟨c, r, hcr, hc⟩ := skip_spaces_word_start _ hq
  obtain ⟨hg1, hg2⟩ := grow_if_needed_bound d hd
  have hg0 : 0 ≤ (grow_if_needed d).num_words := by rw [hg1]; exact hd.2.1
  simp only [loop_body, get_next_word_and_size_eq]
  generalize skip_spaces (if f = 0 then skip_word p else p) = q at hq hcr
  have hlen : ¬ (((q.takeWhile is_word_char).length : Int) ≤ 0) := by
    rw [hcr]; simp [List.takeWhile_cons, hc]
  simp only [hq, if_false, store_word_on_heap, hlen, allocate_for_word]
  have hn : ((q.takeWhile is_word_char).length + 1 : Int).toNat =
      (q.takeWhile is_word_char).length + 1 := by omega
  rw [hn, Int.toNat_natCast, strncpy_word]
  simp only [hg0, hg2, and_self, if_true, push_word]

theorem push_word_well_formed (d : sentence_t) (w : List Char) (h : well_formed d) :
    well_formed (push_word d w) := by
  obtain ⟨hl, h0, h1, h2⟩ := h
  unfold push_word grow_if_needed well_formed
  split
  · simp only [realloc, List.length_set, List.length_append, List.length_take,
      List.length_replicate]
    omega
  · simp only [List.length_set]
    omega

theorem push_all_well_formed (ws : List (List Char)) (d : sentence_t) (h : well_formed d) :
    well_formed (push_all d ws) := by
  induction ws generalizing d with
  | nil => exact h
  | cons w t ih => exact ih _ (push_word_well_formed d w h)

theorem skip_word_of_deref_NUL (p : List Char) (h : deref p = NUL) : skip_word p = p := by
  cases p with
  | nil => rfl
  | cons c r =>
    simp only [deref] at h
    simp [skip_word, h]

theorem c_words_word_start (c : Char) (r : List Char) (h : is_word_char c = true) :
    c_words (c :: r) = (c :: r).takeWhile is_word_char :: c_words (skip_word (c :: r)) := by
  rw [c_words_cons c r h, skip_word_eq]
  simp [List.takeWhile_cons, List.dropWhile_cons, h]

theorem loop_rest (fuel : Nat) (p : List Char) (d : sentence_t) (hd : well_formed d)
    (hf : (c_words (skip_word p)).length + 1 ≤ fuel) :
    loop fuel ⟨some p, d, 0⟩ = .ok (push_all d (c_words (skip_word p))) := by
  induction fuel generalizing p d with
  | zero => omega
  | succ n ih =>
    unfold loop
    by_cases hc : loop_cond ⟨some p, d, 0⟩ = true
    · rw [if_pos hc]
      by_cases hq : deref (skip_spaces (if (0 : Int) = 0 then skip_word p else p)) = NUL
      · rw [loop_body_break p d 0 hq]
        rw [if_pos rfl] at hq
        have := c_words_of_deref_NUL _ hq
        rw [c_words_skip_spaces] at this
        simp [this, push_all]
      · rw [loop_body_word p d 0 hd hq]
        obtain ⟨c, r, hcr, hcw⟩ := skip_spaces_word_start _ hq
        rw [if_pos rfl] at hcr ⊢
        have hw : c_words (skip_word p) =
            (c :: r).takeWhile is_word_char :: c_words (skip_word (c :: r)) := by
          rw [← c_words_skip_spaces, hcr]
          exact c_words_word_start c r hcw
        rw [hcr]
        rw [hw] at hf ⊢
        simp only [List.length_cons] at hf
        show loop n _ = _
        rw [ih (c :: r) _ (push_word_well_formed d _ hd) (by omega)]
        simp [push_all]
    · rw [if_neg hc]
      have hp : deref p = NUL := by
        simpa [loop_cond] using hc
      rw [skip_word_of_deref_NUL p hp, c_words_of_deref_NUL p hp]
      simp [push_all]

theorem loop_first (fuel : Nat) (s : List Char) (d : sentence_t) (hd : well_formed d)
    (hf : (c_words s).length + 1 ≤ fuel) :
    loop fuel ⟨some s, d, 1⟩ = .ok (push_all d (c_words s)) := by
  cases fuel with
  | zero => omega
  | succ n =>
    unfold loop
    by_cases hc : loop_cond ⟨some s, d, 1⟩ = true
    · rw [if_pos hc]
      by_cases hq : deref (skip_spaces (if (1 : Int) = 0 then skip_word s else s)) = NUL
      · rw [loop_body_break s d 1 hq]
        rw [if_neg (by decide)] at hq
        have := c_words_of_deref_NUL _ hq
        rw [c_words_skip_spaces] at this
        simp [this, push_all]
      · rw [loop_body_word s d 1 hd hq]
        obtain ⟨c, r, hcr, hcw⟩ := skip_spaces_word_start _ hq
        rw [if_neg (by decide)] at hcr ⊢
        have hw : c_words s =
            (c :: r).takeWhile is_word_char :: c_words (skip_word (c :: r)) := by
          rw [← c_words_skip_spaces, hcr]
          exact c_words_word_start c r hcw
        rw [hcr]
        rw [hw] at hf ⊢
        simp only [List.length_cons] at hf
        show loop n _ = _
        rw [loop_rest n (c :: r) _ (push_word_well_formed d _ hd) (by omega)]
        simp [push_all]
    · rw [if_neg hc]
      have hp : deref s = NUL := by
        simpa [loop_cond] using hc
      rw [c_words_of_deref_NUL s hp]
      simp [push_all]

theorem create_sentence_struct_well_formed (n : Int) :
    well_formed (create_sentence_struct n) := by
  by_cases h : n ≤ 0
  · simp [create_sentence_struct, well_formed, h]
  · simp only [create_sentence_struct, well_formed, h, if_false, List.length_replicate,
      le_refl, true_and]
    omega

theorem splitOnP_length_le (p : Char → Bool) (xs : List Char) :
    (xs.splitOnP p).length ≤ xs.length + 1 := by
  induction xs with
  | nil => simp
  | cons x t ih =>
    rw [List.splitOnP_cons]
    split
    · simp only [List.length_cons]; omega
    · simp only [List.length_modifyHead, List.length_cons]; omega

theorem c_words_length_le (s : List Char) : (c_words s).length ≤ s.length + 1 := by
  unfold c_words split_words List.splitOn
  have h1 := List.length_filter_le (fun w => decide (w ≠ []))
    ((c_string s).splitOnP (fun x => x == SPACE))
  have h2 := splitOnP_length_le (fun x => x == SPACE) (c_string s)
  have h3 : (c_string s).length ≤ s.length := (List.takeWhile_sublist _).length_le
  omega

theorem allocate_eq (s : List Char) :
    allocate_sentence_dynamically (some s) =
      .ok (push_all (create_sentence_struct 5) (c_words s)) := by
  unfold allocate_sentence_dynamically initial_state
  exact loop_first _ s _ (create_sentence_struct_well_formed 5)
    (by have := c_words_length_le s; omega)

theorem c_words_induct (P : List Char → Prop)
    (hnul : ∀ p, deref p = NUL → P p)
    (hsp : ∀ r, P r → P (SPACE :: r))
    (hw : ∀ c r, is_word_char c = true → P (r.dropWhile is_word_char) → P (c :: r)) :
    ∀ p, P p := by
  have key : ∀ n (p : List Char), p.length ≤ n → P p := by
    intro n
    induction n with
    | zero =>
      intro p hp
      have : p = [] := List.length_eq_zero.mp (by omega)
      subst this
      exact hnul [] rfl
    | succ n ih =>
      intro p hp
      cases p with
      | nil => exact hnul [] rfl
      | cons c r =>
        simp only [List.length_cons] at hp
        by_cases h0 : c = NUL
        · exact hnul (c :: r) (by simp [deref, h0])
        · by_cases h1 : c = SPACE
          · subst h1
            exact hsp r (ih r (by omega))
          · refine hw c r (by simp [is_word_char, h0, h1]) (ih _ ?_)
            have := (List.dropWhile_sublist is_word_char (l := r)).length_le
            omega
  exact fun p => key p.length p (le_refl _)

theorem c_words_chars (p : List Char) :
    ∀ w ∈ c_words p, w ≠ [] ∧ ∀ c ∈ w, is_word_char c = true := by
  induction p using c_words_induct with
  | hnul p h => simp [c_words_of_deref_NUL p h]
  | hsp r ih => rw [c_words_SPACE]; exact ih
  | hw c r hc ih =>
    rw [c_words_cons c r hc]
    intro w hw
    rcases List.mem_cons.mp hw with rfl | hw
    · refine ⟨by simp, ?_⟩
      intro x hx
      rcases List.mem_cons.mp hx with rfl | hx
      · exact hc
      · exact List.mem_takeWhile_imp hx
    · exact ih w hw

theorem take_set_succ (l : List heap_ptr) (n : Nat) (x : heap_ptr) (h : n < l.length) :
    (l.set n x).take (n + 1) = l.take n ++ [x] := by
  induction l generalizing n with
  | nil => simp at h
  | cons a t ih =>
    cases n with
    | zero => simp
    | succ m =>
      simp only [List.length_cons] at h
      simp [ih m (by omega)]

theorem grow_if_needed_take (d : sentence_t) (h : well_formed d) :
    (grow_if_needed d).sentence.take d.num_words.toNat = d.sentence.take d.num_words.toNat := by
  obtain ⟨hl, h0, h1, h2⟩ := h
  unfold grow_if_needed
  split
  · have e : d.sentence.take (d.sentence_size * 2).toNat = d.sentence :=
      List.take_of_length_le (by omega)
    simp only [realloc]
    rw [e, List.take_append_of_le_length (by omega)]
  · rfl

theorem num_words_push_word (d : sentence_t) (w : List Char) :
    (push_word d w).num_words = d.num_words + 1 := by
  unfold push_word grow_if_needed
  split <;> rfl

theorem tokens_push_word (d : sentence_t) (w : List Char) (h : well_formed d)
    (hw : ∀ c ∈ w, c ≠ NUL) : tokens (push_word d w) = tokens d ++ [some w] := by
  obtain ⟨hg1, hg2⟩ := grow_if_needed_bound d h
  have ht := grow_if_needed_take d h
  have h0 := h.2.1
  unfold tokens
  rw [num_words_push_word]
  have hn : (d.num_words + 1).toNat = d.num_words.toNat + 1 := by omega
  rw [hn]
  simp only [push_word]
  rw [hg1] at hg2 ⊢
  rw [take_set_succ _ _ _ hg2, ht]
  simp [stored_string, read_string_word w hw]

theorem num_words_push_all (ws : List (List Char)) (d : sentence_t) :
    (push_all d ws).num_words = d.num_words + (ws.length : Int) := by
  induction ws generalizing d with
  | nil => simp [push_all]
  | cons w t ih =>
    have := ih (push_word d w)
    simp only [push_all, List.foldl_cons, List.length_cons] at this ⊢
    rw [this, num_words_push_word]
    push_cast
    omega

theorem tokens_push_all (ws : List (List Char)) (d : sentence_t) (h : well_formed d)
    (hw : ∀ w ∈ ws, ∀ c ∈ w, c ≠ NUL) :
    tokens (push_all d ws) = tokens d ++ ws.map some := by
  induction ws generalizing d with
  | nil => simp [push_all]
  | cons w t ih =>
    have := ih (push_word d w) (push_word_well_formed d w h)
      (fun x hx => hw x (List.mem_cons_of_mem _ hx))
    simp only [push_all, List.foldl_cons, List.map_cons] at this ⊢
    rw [this, tokens_push_word d w h (hw w (List.mem_cons_self _ _))]
    simp

theorem is_word_char_ne_NUL (c : Char) (h : is_word_char c = true) : c ≠ NUL := by
  intro e; simp [is_word_char, e] at h

theorem is_word_char_ne_SPACE (c : Char) (h : is_word_char c = true) : c ≠ SPACE := by
  intro e; simp [is_word_char, e] at h

theorem tokens_create (n : Int) : tokens (create_sentence_struct n) = [] := by
  simp [tokens, create_sentence_struct]

/-- The result of `allocate_sentence_dynamically`: the words of the text, in
order, appended to the empty collection of capacity 5. -/
theorem allocate_tokens (s : List Char) :
    ∃ d, allocate_sentence_dynamically (some s) = .ok d ∧
      d = push_all (create_sentence_struct 5) (c_words s) ∧
      d.num_words = ((c_words s).length : Int) ∧
      tokens d = (c_words s).map some := by
  refine ⟨_, allocate_eq s, rfl, ?_, ?_⟩
  · rw [num_words_push_all]; simp [create_sentence_struct]
  · rw [tokens_push_all _ _ (create_sentence_struct_well_formed 5), tokens_create]
    · simp
    · intro w hw c hc
      exact is_word_char_ne_NUL c ((c_words_chars s w hw).2 c hc)

/-! ## Tokens and maximal runs -/

theorem c_string_of_no_NUL (s : List Char) (h : ∀ c ∈ s, c ≠ NUL) : c_string s = s := by
  unfold c_string
  rw [List.takeWhile_eq_self_iff]
  intro c hc
  simpa using h c hc

theorem c_words_of_no_NUL (s : List Char) (h : ∀ c ∈ s, c ≠ NUL) :
    c_words s = split_words s := by
  rw [c_words, c_string_of_no_NUL s h]

theorem runs_zip (prev : Char) (s : List Char) :
    (s.tails.zip (prev :: s)).filterMap run_at =
      if prev = SPACE then split_words s
      else split_words (s.dropWhile (fun x => decide (x ≠ SPACE))) := by
  induction s generalizing prev with
  | nil => simp [run_at, split_words_nil]
  | cons c r ih =>
    rw [List.tails_cons, List.zip_cons_cons, List.filterMap_cons, ih c]
    by_cases hp : prev = SPACE
    · by_cases hc : c = SPACE
      · subst hc
        simp [run_at, hp, split_words_space]
      · simp [run_at, hp, hc, split_words_cons c r hc, List.takeWhile_cons]
    · by_cases hc : c = SPACE
      · subst hc
        simp [run_at, hp, List.dropWhile_cons, split_words_space]
      · simp [run_at, hp, hc, List.dropWhile_cons]

theorem maximal_runs_eq_split_words (s : List Char) : maximal_runs s = split_words s := by
  unfold maximal_runs
  rw [runs_zip, if_pos rfl]

/-- C1. For every text `s` (its characters, none of them NUL, the terminator
implicit), `allocate_sentence_dynamically` returns a collection whose
`num_words` is the number of maximal runs of non-space characters of `s` and
whose stored strings are exactly these runs, left to right; the runs are the
pieces of `s` split on the space character with the empty pieces removed. -/
theorem C1_tokens_are_the_maximal_runs (s : List Char) (h : ∀ c ∈ s, c ≠ NUL) :
    ∃ d, allocate_sentence_dynamically (some s) = .ok d ∧
      d.num_words = ((maximal_runs s).length : Int) ∧
      tokens d = (maximal_runs s).map some ∧
      maximal_runs s = (s.splitOn SPACE).filter (fun w => decide (w ≠ [])) := by
  obtain ⟨d, h1, _, h3, h4⟩ := allocate_tokens s
  rw [c_words_of_no_NUL s h, ← maximal_runs_eq_split_words] at h3 h4
  exact ⟨d, h1, h3, h4, maximal_runs_eq_split_words s⟩

theorem C1_witness :
    (∀ c ∈ "Hi   there!".toList, c ≠ NUL) ∧
    ∃ d, allocate_sentence_dynamically (some "Hi   there!".toList) = .ok d ∧
      d.num_words = 2 ∧ tokens d = [some "Hi".toList, some "there!".toList] := by
  obtain ⟨d, h1, h2, h3, _⟩ :=
    C1_tokens_are_the_maximal_runs "Hi   there!".toList (by decide)
  exact ⟨by decide, d, h1, by rw [h2]; decide, by rw [h3]; decide⟩

/-! ## Printing and separators -/

theorem c_words_spaces_append (sep p : List Char) (h : ∀ c ∈ sep, c = SPACE) :
    c_words (sep ++ p) = c_words p := by
  induction sep with
  | nil => rfl
  | cons c r ih =>
    have hc : c = SPACE := h c (List.mem_cons_self _ _)
    subst hc
    rw [List.cons_append, c_words_SPACE]
    exact ih (fun x hx => h x (List.mem_cons_of_mem _ hx))

theorem takeWhile_append_stop (w p : List Char) (hw : ∀ c ∈ w, is_word_char c = true)
    (hp : p.takeWhile is_word_char = []) : (w ++ p).takeWhile is_word_char = w := by
  rw [List.takeWhile_append_of_pos hw, hp, List.append_nil]

theorem dropWhile_append_stop (w p : List Char) (hw : ∀ c ∈ w, is_word_char c = true)
    (hp : p.takeWhile is_word_char = []) : (w ++ p).dropWhile is_word_char = p := by
  rw [List.dropWhile_append_of_pos hw]
  have := List.takeWhile_append_dropWhile is_word_char p
  rw [hp, List.nil_append] at this
  exact this

theorem c_words_word_append (w p : List Char) (hne : w ≠ [])
    (hw : ∀ c ∈ w, is_word_char c = true) (hp : p.takeWhile is_word_char = []) :
    c_words (w ++ p) = w :: c_words p := by
  cases w with
  | nil => exact absurd rfl hne
  | cons c r =>
    have hr : ∀ x ∈ r, is_word_char x = true := fun x hx => hw x (List.mem_cons_of_mem _ hx)
    rw [List.cons_append, c_words_cons c _ (hw c (List.mem_cons_self _ _)),
      takeWhile_append_stop r p hr hp, dropWhile_append_stop r p hr hp]

theorem takeWhile_word_char_SPACE (r : List Char) :
    (SPACE :: r).takeWhile is_word_char = [] := by
  simp [List.takeWhile_cons, is_word_char]

theorem c_words_spaced (ws : List (List Char))
    (h : ∀ w ∈ ws, w ≠ [] ∧ ∀ c ∈ w, is_word_char c = true) :
    c_words (spaced ws) = ws := by
  induction ws with
  | nil => simp [spaced, c_words_nil]
  | cons w t ih =>
    have hw := h w (List.mem_cons_self _ _)
    have ht := ih (fun x hx => h x (List.mem_cons_of_mem _ hx))
    unfold spaced at ht ⊢
    rw [List.map_cons, List.flatten_cons, List.append_assoc, List.singleton_append,
      c_words_word_append w _ hw.1 hw.2 (takeWhile_word_char_SPACE _), c_words_SPACE, ht]

theorem print_words_eq (d : sentence_t) (ws : List (List Char)) (i : Nat) (out : List Char)
    (h : ((d.sentence.drop i).take ws.length).map stored_string = ws.map some) :
    print_words d ws.length i out = .ok (out ++ spaced ws) := by
  induction ws generalizing i out with
  | nil => simp [print_words, spaced]
  | cons w t ih =>
    cases hd : d.sentence.drop i with
    | nil => simp [hd] at h
    | cons p rest =>
      have hg : d.sentence.get? i = some p := by
        have := List.head?_drop d.sentence i
        rw [hd] at this
        simpa using this.symm
      have hrest : d.sentence.drop (i + 1) = rest := by
        rw [← List.tail_drop, hd]; rfl
      rw [hd] at h
      simp only [List.length_cons, List.take_succ_cons, List.map_cons, List.cons.injEq] at h
      simp only [List.length_cons, print_words, hg, h.1]
      rw [ih (i + 1) _ (by rw [hrest]; exact h.2)]
      simp [spaced]

theorem print_sentence_eq (d : sentence_t) (ws : List (List Char))
    (hn : d.num_words = (ws.length : Int)) (ht : tokens d = ws.map some) :
    print_sentence (some d) = .ok (spaced ws ++ [NEWLINE]) := by
  have hk : d.num_words.toNat = ws.length := by omega
  unfold tokens at ht
  rw [hk] at ht
  simp only [print_sentence, hk]
  rw [print_words_eq d ws 0 [] (by simpa using ht)]
  simp

theorem spaced_eq_intercalate (ws : List (List Char)) (h : ws ≠ []) :
    spaced ws = List.intercalate [SPACE] ws ++ [SPACE] := by
  induction ws with
  | nil => exact absurd rfl h
  | cons w t ih =>
    cases t with
    | nil => simp [spaced, List.intercalate]
    | cons w2 t2 =>
      have := ih (by simp)
      simp only [spaced, List.map_cons, List.flatten_cons, List.intercalate,
        List.intersperse_cons_cons] at this ⊢
      rw [this]
      simp

/-- C2, as amended. For every text `s`, `print_sentence` applied to the
collection `allocate_sentence_dynamically` returns writes the words of `s` in
their original order, each followed by exactly one space, and then a line feed:
when there is a word, that is the words joined by single spaces, then one more
space and the line feed. -/
theorem C2_print_sentence_output (s : List Char) (h : ∀ c ∈ s, c ≠ NUL) :
    ∃ d, allocate_sentence_dynamically (some s) = .ok d ∧
      print_sentence (some d) =
        .ok ((List.map (fun w => w ++ [SPACE]) (maximal_runs s)).flatten ++ [NEWLINE]) ∧
      (maximal_runs s ≠ [] →
        print_sentence (some d) =
          .ok (List.intercalate [SPACE] (maximal_runs s) ++ [SPACE] ++ [NEWLINE])) := by
  obtain ⟨d, h1, _, h3, h4⟩ := allocate_tokens s
  rw [c_words_of_no_NUL s h, ← maximal_runs_eq_split_words] at h3 h4
  have hp := print_sentence_eq d (maximal_runs s) h3 h4
  refine ⟨d, h1, hp, ?_⟩
  intro hne
  rw [hp, spaced_eq_intercalate _ hne]

theorem C2_witness :
    (∀ c ∈ "a b  c".toList, c ≠ NUL) ∧
    ∃ d, allocate_sentence_dynamically (some "a b  c".toList) = .ok d ∧
      print_sentence (some d) = .ok "a b c \n".toList := by
  obtain ⟨d, h1, h2, _⟩ := C2_print_sentence_output "a b  c".toList (by decide)
  exact ⟨by decide, d, h1, by rw [h2]; rfl⟩

/-- C2 as stated fails: for the text `hi there` the output is `hi there`
followed by a space and a line feed, which is not the two words joined by a
single space, with or without a line feed at the end. -/
theorem C2_counterexample :
    ∃ d out, allocate_sentence_dynamically (some "hi there".toList) = .ok d ∧
      tokens d = [some "hi".toList, some "there".toList] ∧
      print_sentence (some d) = .ok out ∧
      out = "hi there \n".toList ∧
      out ≠ List.intercalate [SPACE] ["hi".toList, "there".toList] ∧
      out ≠ List.intercalate [SPACE] ["hi".toList, "there".toList] ++ [NEWLINE] :=
  ⟨_, _, rfl, rfl, rfl, by decide, by decide, by decide⟩

theorem separated_cons_cons (w : List Char) (t : List (List Char)) (sep : List Char)
    (seps : List (List Char)) :
    separated (w :: t) (sep :: seps) = w ++ (sep ++ separated t seps) := by
  simp [separated]

theorem c_words_separated (ws seps : List (List Char))
    (hw : ∀ w ∈ ws, w ≠ [] ∧ ∀ c ∈ w, is_word_char c = true)
    (hs : ∀ sep ∈ seps, sep ≠ [] ∧ ∀ c ∈ sep, c = SPACE)
    (hl : seps.length = ws.length - 1) :
    c_words (separated ws seps) = ws := by
  induction ws generalizing seps with
  | nil => simp [separated, c_words_nil]
  | cons w t ih =>
    have hw1 := hw w (List.mem_cons_self _ _)
    have hwt : ∀ x ∈ t, x ≠ [] ∧ ∀ c ∈ x, is_word_char c = true :=
      fun x hx => hw x (List.mem_cons_of_mem _ hx)
    cases seps with
    | nil =>
      have ht : t = [] := by
        simp only [List.length_nil, List.length_cons, Nat.add_sub_cancel] at hl
        exact List.length_eq_zero.mp hl.symm
      subst ht
      have := c_words_word_append w [] hw1.1 hw1.2 rfl
      simpa [separated, c_words_nil] using this
    | cons sep seps =>
      have hs1 := hs sep (List.mem_cons_self _ _)
      have hst : ∀ x ∈ seps, x ≠ [] ∧ ∀ c ∈ x, c = SPACE :=
        fun x hx => hs x (List.mem_cons_of_mem _ hx)
      have hstop : (sep ++ separated t seps).takeWhile is_word_char = [] := by
        cases sep with
        | nil => exact absurd rfl hs1.1
        | cons c r =>
          rw [hs1.2 c (List.mem_cons_self _ _)]
          exact takeWhile_word_char_SPACE _
      have hlt : seps.length = t.length - 1 := by
        simp only [List.length_cons, Nat.add_sub_cancel] at hl
        omega
      rw [separated_cons_cons, c_words_word_append w _ hw1.1 hw1.2 hstop,
        c_words_spaces_append sep _ hs1.2, ih seps hwt hst hlt]

/-- C3. For words `w1..wn`, each non-empty and free of spaces (and of NUL), and
separators `sep1..sep(n-1)`, each one or more spaces,
`allocate_sentence_dynamically` applied to `w1 sep1 w2 ... sep(n-1) wn` returns
exactly the tokens `w1, ..., wn`, with `num_words = n`. -/
theorem C3_separators_collapse (ws seps : List (List Char))
    (hw : ∀ w ∈ ws, w ≠ [] ∧ ∀ c ∈ w, c ≠ SPACE ∧ c ≠ NUL)
    (hs : ∀ sep ∈ seps, sep ≠ [] ∧ ∀ c ∈ sep, c = SPACE)
    (hl : seps.length = ws.length - 1) :
    ∃ d, allocate_sentence_dynamically (some (separated ws seps)) = .ok d ∧
      d.num_words = (ws.length : Int) ∧ tokens d = ws.map some := by
  obtain ⟨d, h1, _, h3, h4⟩ := allocate_tokens (separated ws seps)
  have hw2 : ∀ w ∈ ws, w ≠ [] ∧ ∀ c ∈ w, is_word_char c = true := by
    intro w hmem
    refine ⟨(hw w hmem).1, fun c hc => ?_⟩
    have := (hw w hmem).2 c hc
    simp [is_word_char, this.1, this.2]
  rw [c_words_separated ws seps hw2 hs hl] at h3 h4
  exact ⟨d, h1, h3, h4⟩

theorem C3_witness :
    (separated ["Hi".toList, "there!".toList] ["   ".toList] = "Hi   there!".toList ∧
      ∃ d, allocate_sentence_dynamically (some "Hi   there!".toList) = .ok d ∧
        d.num_words = 2 ∧ tokens d = [some "Hi".toList, some "there!".toList]) ∧
    (separated ["a".toList, "b".toList, "c".toList, "d".toList, "e".toList, "f".toList]
        [" ".toList, " ".toList, " ".toList, " ".toList, " ".toList] = "a b c d e f".toList ∧
      ∃ d, allocate_sentence_dynamically (some "a b c d e f".toList) = .ok d ∧
        d.num_words = 6 ∧
        tokens d = [some "a".toList, some "b".toList, some "c".toList, some "d".toList,
          some "e".toList, some "f".toList]) :=
  ⟨⟨by decide,
    C3_separators_collapse ["Hi".toList, "there!".toList] ["   ".toList]
      (by decide) (by decide) (by decide)⟩,
   ⟨by decide,
    C3_separators_collapse
      ["a".toList, "b".toList, "c".toList, "d".toList, "e".toList, "f".toList]
      [" ".toList, " ".toList, " ".toList, " ".toList, " ".toList]
      (by decide) (by decide) (by decide)⟩⟩

/-! ## Padding and capacity -/

theorem takeWhile_append_of_stop (r sp : List Char) (h : sp.takeWhile is_word_char = []) :
    (r ++ sp).takeWhile is_word_char = r.takeWhile is_word_char := by
  induction r with
  | nil => simpa using h
  | cons x t ih =>
    by_cases hx : is_word_char x = true
    · simp [List.takeWhile_cons, hx, ih]
    · simp [List.takeWhile_cons, hx]

theorem dropWhile_append_of_stop (r sp : List Char) (h : sp.takeWhile is_word_char = []) :
    (r ++ sp).dropWhile is_word_char = r.dropWhile is_word_char ++ sp := by
  induction r with
  | nil =>
    have := List.takeWhile_append_dropWhile is_word_char sp
    rw [h, List.nil_append] at this
    simpa using this
  | cons x t ih =>
    by_cases hx : is_word_char x = true
    · simp [List.dropWhile_cons, hx, ih]
    · simp [List.dropWhile_cons, hx]

theorem takeWhile_word_char_spaces (sp : List Char) (h : ∀ c ∈ sp, c = SPACE) :
    sp.takeWhile is_word_char = [] := by
  cases sp with
  | nil => rfl
  | cons c r =>
    rw [h c (List.mem_cons_self _ _)]
    exact takeWhile_word_char_SPACE r

theorem c_words_append_spaces (s sp : List Char) (h : ∀ c ∈ sp, c = SPACE) :
    c_words (s ++ sp) = c_words s := by
  have hstop := takeWhile_word_char_spaces sp h
  induction s using c_words_induct with
  | hnul p hp =>
    cases p with
    | nil =>
      have := c_words_spaces_append sp [] h
      simpa using this
    | cons c r =>
      simp only [deref] at hp
      subst hp
      rw [List.cons_append, c_words_NUL, c_words_NUL]
  | hsp r ih => rw [List.cons_append, c_words_SPACE, c_words_SPACE, ih]
  | hw c r hc ih =>
    rw [List.cons_append, c_words_cons c _ hc, c_words_cons c _ hc,
      takeWhile_append_of_stop r sp hstop, dropWhile_append_of_stop r sp hstop, ih]

theorem c_words_padded (s : List Char) (i j : Nat) :
    c_words (List.replicate i SPACE ++ s ++ List.replicate j SPACE) = c_words s := by
  rw [List.append_assoc, c_words_spaces_append _ _ (fun c hc => List.eq_of_mem_replicate hc),
    c_words_append_spaces _ _ (fun c hc => List.eq_of_mem_replicate hc)]

/-- C4. Leading and trailing spaces are ignored: for every text `s` and all
`i` and `j`, `allocate_sentence_dynamically` applied to `i` spaces, then `s`,
then `j` spaces returns a collection with the same tokens and the same
`num_words` as for `s` (the very same collection); the text `  hi  there  `
yields exactly the tokens `hi` and `there`. -/
theorem C4_leading_and_trailing_spaces_ignored :
    (∀ (s : List Char) (i j : Nat),
      ∃ d d2, allocate_sentence_dynamically (some s) = .ok d ∧
        allocate_sentence_dynamically
          (some (List.replicate i SPACE ++ s ++ List.replicate j SPACE)) = .ok d2 ∧
        tokens d2 = tokens d ∧ d2.num_words = d.num_words ∧ d2 = d) ∧
    (∃ d, allocate_sentence_dynamically (some "  hi  there  ".toList) = .ok d ∧
      d.num_words = 2 ∧ tokens d = [some "hi".toList, some "there".toList]) := by
  refine ⟨?_, _, rfl, rfl, rfl⟩
  intro s i j
  refine ⟨_, _, allocate_eq s, allocate_eq _, ?_⟩
  rw [c_words_padded]
  exact ⟨rfl, rfl, rfl⟩

theorem sentence_size_push_word (d : sentence_t) (w : List Char) :
    (push_word d w).sentence_size =
      if d.num_words ≥ d.sentence_size then d.sentence_size * 2 else d.sentence_size := by
  unfold push_word grow_if_needed
  split <;> rfl

theorem capacity_push_word (d : sentence_t) (w : List Char) (k : Nat)
    (h1 : d.sentence_size = 5 * 2 ^ k) (h2 : d.num_words ≤ d.sentence_size)
    (h3 : ∀ j : Nat, j < k → (5 * 2 ^ j : Int) < d.num_words) :
    ∃ k2 : Nat, (push_word d w).sentence_size = 5 * 2 ^ k2 ∧
      (push_word d w).num_words ≤ (push_word d w).sentence_size ∧
      ∀ j : Nat, j < k2 → (5 * 2 ^ j : Int) < (push_word d w).num_words := by
  have hpos : (0 : Int) < 2 ^ k := by positivity
  rw [sentence_size_push_word, num_words_push_word]
  by_cases hfull : d.num_words ≥ d.sentence_size
  · rw [if_pos hfull]
    refine ⟨k + 1, by rw [h1, pow_succ]; ring, by omega, ?_⟩
    intro j hj
    have hle : (2 : Int) ^ j ≤ 2 ^ k := pow_le_pow_right₀ (by norm_num) (by omega)
    omega
  · rw [if_neg hfull]
    refine ⟨k, h1, by omega, ?_⟩
    intro j hj
    have := h3 j hj
    omega

theorem capacity_push_all (ws : List (List Char)) (d : sentence_t) (k : Nat)
    (h1 : d.sentence_size = 5 * 2 ^ k) (h2 : d.num_words ≤ d.sentence_size)
    (h3 : ∀ j : Nat, j < k → (5 * 2 ^ j : Int) < d.num_words) :
    ∃ k2 : Nat, (push_all d ws).sentence_size = 5 * 2 ^ k2 ∧
      (push_all d ws).num_words ≤ (push_all d ws).sentence_size ∧
      ∀ j : Nat, j < k2 → (5 * 2 ^ j : Int) < (push_all d ws).num_words := by
  induction ws generalizing d k with
  | nil => exact ⟨k, h1, h2, h3⟩
  | cons w t ih =>
    obtain ⟨k2, a1, a2, a3⟩ := capacity_push_word d w k h1 h2 h3
    exact ih (push_word d w) k2 a1 a2 a3

/-- C5. Capacity doubling: the collection returned for a text of `n` words has
`sentence_size = 5 * 2^k` for the least `k` with `n ≤ 5 * 2^k`: 5 up to five
words, 10 for six to ten, 20 for eleven to twenty. On `a b c d e f` the
capacity is 5 after each of the first five iterations and 10 after the sixth:
one growth event. -/
theorem C5_capacity_doubling :
    (∀ s : List Char, ∃ d, allocate_sentence_dynamically (some s) = .ok d ∧
      d.num_words = ((maximal_runs (c_string s)).length : Int) ∧
      (∃ k : Nat, d.sentence_size = 5 * 2 ^ k ∧ d.num_words ≤ 5 * 2 ^ k ∧
        ∀ j : Nat, d.num_words ≤ 5 * 2 ^ j → k ≤ j) ∧
      (d.num_words ≤ 5 → d.sentence_size = 5) ∧
      (6 ≤ d.num_words → d.num_words ≤ 10 → d.sentence_size = 10) ∧
      (11 ≤ d.num_words → d.num_words ≤ 20 → d.sentence_size = 20)) ∧
    (∃ d, allocate_sentence_dynamically (some "a b c d e f".toList) = .ok d ∧
      d.num_words = 6 ∧ d.sentence_size = 10 ∧
      (List.range 8).map (fun k =>
          (state_after k (initial_state "a b c d e f".toList)).map
            (fun st => st.sentence_data.sentence_size)) =
        [some 5, some 5, some 5, some 5, some 5, some 5, some 10, none]) := by
  refine ⟨?_, _, rfl, rfl, rfl, rfl⟩
  intro s
  obtain ⟨d, h1, h2, h3, _⟩ := allocate_tokens s
  obtain ⟨k, a1, a2, a3⟩ := capacity_push_all (c_words s) (create_sentence_struct 5) 0
    (by simp [create_sentence_struct]) (by simp [create_sentence_struct])
    (fun j hj => absurd hj (Nat.not_lt_zero j))
  rw [← h2] at a1 a2 a3
  have hmin : ∀ j : Nat, d.num_words ≤ 5 * 2 ^ j → k ≤ j := by
    intro j hj
    by_contra hlt
    have := a3 j (by omega)
    omega
  have hk0 : d.num_words ≤ 5 → k = 0 := fun h => by
    have := hmin 0 (by simpa using h); omega
  have hk1 : d.num_words ≤ 10 → k ≤ 1 := fun h => hmin 1 (by norm_num; exact h)
  have hk2 : d.num_words ≤ 20 → k ≤ 2 := fun h => hmin 2 (by norm_num; exact h)
  refine ⟨d, h1, ?_, ⟨k, a1, by rw [← a1]; exact a2, hmin⟩, ?_, ?_, ?_⟩
  · rw [h3, maximal_runs_eq_split_words]; rfl
  · intro h
    rw [a1, hk0 h]; norm_num
  · intro h6 h10
    have hk := hk1 h10
    interval_cases k
    · rw [a1] at a2; norm_num at a2; omega
    · rw [a1]; norm_num
  · intro h11 h20
    have hk := hk2 h20
    interval_cases k
    · rw [a1] at a2; norm_num at a2; omega
    · rw [a1] at a2; norm_num at a2; omega
    · rw [a1]; norm_num

theorem C5_witness :
    ∃ d, allocate_sentence_dynamically (some "a b c d e f".toList) = .ok d ∧
      d.num_words = 6 ∧ d.sentence_size = 10 := by
  obtain ⟨d, h1, h2, _, _, h10, _⟩ := C5_capacity_doubling.1 "a b c d e f".toList
  have h6 : d.num_words = 6 := by rw [h2]; decide
  exact ⟨d, h1, h6, h10 (by omega) (by omega)⟩

/-! ## The collection invariant -/

theorem read_string_terminated (w : List Char) : ∃ t, read_string (w ++ [NUL]) = some t := by
  induction w with
  | nil => exact ⟨[], by simp [read_string]⟩
  | cons c r ih =>
    obtain ⟨t, ht⟩ := ih
    by_cases hc : c = NUL
    · exact ⟨[], by simp [read_string, hc]⟩
    · exact ⟨c :: t, by simp [read_string, hc, ht]⟩

theorem take_push_word (d : sentence_t) (w : List Char) (h : well_formed d) :
    (push_word d w).sentence.take (d.num_words.toNat + 1) =
      d.sentence.take d.num_words.toNat ++ [.buf (w ++ [NUL])] := by
  obtain ⟨hg1, hg2⟩ := grow_if_needed_bound d h
  have ht := grow_if_needed_take d h
  simp only [push_word]
  rw [hg1] at hg2 ⊢
  rw [take_set_succ _ _ _ hg2, ht]

theorem well_formed_of_invariant (d : sentence_t) (h : collection_invariant d) :
    well_formed d := ⟨h.2.2.2.1, h.1, h.2.1, h.2.2.1⟩

theorem slots_of_take (l : List heap_ptr) (n : Nat) :
    (∀ i : Nat, i < n → holds_string (l.get? i) = true) ↔
      (n ≤ l.length ∧ ∀ p ∈ l.take n, holds_string (some p) = true) := by
  constructor
  · intro h
    have hn : n ≤ l.length := by
      by_contra hlt
      have := h l.length (by omega)
      simp [holds_string] at this
    refine ⟨hn, fun p hp => ?_⟩
    obtain ⟨i, hi, rfl⟩ := List.getElem_of_mem hp
    simp only [List.length_take] at hi
    have := h i (by omega)
    rw [List.get?_eq_getElem?, List.getElem?_eq_getElem (by omega)] at this
    rw [List.getElem_take]
    exact this
  · rintro ⟨hn, h⟩ i hi
    have hmem : l[i] ∈ l.take n := by
      rw [List.mem_iff_getElem]
      exact ⟨i, by simp; omega, by simp [List.getElem_take]⟩
    rw [List.get?_eq_getElem?, List.getElem?_eq_getElem (by omega)]
    exact h _ hmem

theorem push_word_invariant (d : sentence_t) (w : List Char) (h : collection_invariant d) :
    collection_invariant (push_word d w) ∧ d.sentence_size ≤ (push_word d w).sentence_size := by
  have hwf := well_formed_of_invariant d h
  obtain ⟨hl, h0, h1, h2⟩ := push_word_well_formed d w hwf
  have hsz : d.sentence_size ≤ (push_word d w).sentence_size := by
    rw [sentence_size_push_word]
    have := h.2.2.1
    split <;> omega
  refine ⟨⟨h0, h1, h2, hl, ?_⟩, hsz⟩
  rw [slots_of_take]
  have hn : (push_word d w).num_words.toNat = d.num_words.toNat + 1 := by
    rw [num_words_push_word]; have := h.1; omega
  have hnw := num_words_push_word d w
  refine ⟨by omega, ?_⟩
  rw [hn, take_push_word d w hwf]
  intro p hp
  rcases List.mem_append.mp hp with hp | hp
  · exact ((slots_of_take d.sentence _).mp h.2.2.2.2).2 p hp
  · rw [List.mem_singleton] at hp
    obtain ⟨t, ht⟩ := read_string_terminated w
    simp [hp, holds_string, ht]

theorem loop_body_invariant (st st2 : loop_state)
    (h : collection_invariant st.sentence_data) (hb : loop_body st = .ok (some st2)) :
    collection_invariant st2.sentence_data ∧
      st.sentence_data.sentence_size ≤ st2.sentence_data.sentence_size := by
  obtain ⟨p, d, f⟩ := st
  cases p with
  | none => simp [loop_body, get_next_word_and_size] at hb
  | some p =>
    by_cases hq : deref (skip_spaces (if f = 0 then skip_word p else p)) = NUL
    · rw [loop_body_break p d f hq] at hb
      simp at hb
    · rw [loop_body_word p d f (well_formed_of_invariant d h) hq] at hb
      simp only [Except.ok.injEq, Option.some.injEq] at hb
      subst hb
      exact push_word_invariant d _ h

theorem state_after_invariant (k : Nat) (st st2 : loop_state)
    (h : collection_invariant st.sentence_data) (hk : state_after k st = some st2) :
    collection_invariant st2.sentence_data ∧
      st.sentence_data.sentence_size ≤ st2.sentence_data.sentence_size := by
  induction k generalizing st with
  | zero =>
    simp only [state_after, Option.some.injEq] at hk
    subst hk
    exact ⟨h, le_refl _⟩
  | succ n ih =>
    unfold state_after at hk
    split at hk
    · split at hk
      · rename_i st1 hb
        obtain ⟨i1, m1⟩ := loop_body_invariant st st1 h hb
        obtain ⟨i2, m2⟩ := ih st1 i1 hk
        exact ⟨i2, le_trans m1 m2⟩
      · simp at hk
    · simp at hk

theorem state_after_add (j m : Nat) (st : loop_state) :
    state_after (j + m) st = (state_after j st).bind (state_after m) := by
  induction j generalizing st with
  | zero => simp [state_after]
  | succ n ih =>
    have e : ∀ (k : Nat) (x : loop_state), state_after (k + 1) x =
        if loop_cond x then
          match loop_body x with
          | .ok (some st2) => state_after k st2
          | _ => none
        else none := fun _ _ => rfl
    rw [Nat.succ_add, e, e]
    split
    · split
      · exact ih _
      · rfl
    · rfl

theorem create_sentence_struct_invariant (n : Int) :
    collection_invariant (create_sentence_struct n) := by
  obtain ⟨hl, h0, h1, h2⟩ := create_sentence_struct_well_formed n
  refine ⟨h0, h1, h2, hl, ?_⟩
  intro i hi
  simp [create_sentence_struct] at hi

theorem push_all_invariant (ws : List (List Char)) (d : sentence_t)
    (h : collection_invariant d) : collection_invariant (push_all d ws) := by
  induction ws generalizing d with
  | nil => exact h
  | cons w t ih => exact ih _ (push_word_invariant d w h).1

/-- C6. The collection invariant: `0 ≤ num_words ≤ sentence_size`,
`sentence_size ≥ 1` and every slot below `num_words` holding a non-null,
terminated string. It holds in the state `create_sentence_struct` produces; one
iteration of the loop of `allocate_sentence_dynamically` keeps it and does not
lower `sentence_size`; so it holds after any number of iterations, with
`sentence_size` at least what it was in every earlier state, and in the
returned collection. Under it the growth test `num_words >= sentence_size`
fires exactly when `num_words = sentence_size`. -/
theorem C6_collection_invariant :
    (∀ n : Int, collection_invariant (create_sentence_struct n)) ∧
    (∀ st st2 : loop_state, collection_invariant st.sentence_data →
      loop_body st = .ok (some st2) →
      collection_invariant st2.sentence_data ∧
        st.sentence_data.sentence_size ≤ st2.sentence_data.sentence_size) ∧
    (∀ (n : Int) (p : Option (List Char)) (f : Int) (k : Nat) (st : loop_state),
      state_after k ⟨p, create_sentence_struct n, f⟩ = some st →
      collection_invariant st.sentence_data ∧
        ∀ (j : Nat) (stj : loop_state), j ≤ k →
          state_after j ⟨p, create_sentence_struct n, f⟩ = some stj →
          stj.sentence_data.sentence_size ≤ st.sentence_data.sentence_size) ∧
    (∀ s : List Char, ∃ d, allocate_sentence_dynamically (some s) = .ok d ∧
      collection_invariant d) ∧
    (∀ d : sentence_t, collection_invariant d →
      (d.num_words ≥ d.sentence_size ↔ d.num_words = d.sentence_size)) := by
  refine ⟨create_sentence_struct_invariant, loop_body_invariant, ?_, ?_, ?_⟩
  · intro n p f k st hk
    have h0 := create_sentence_struct_invariant n
    refine ⟨(state_after_invariant k _ st h0 hk).1, ?_⟩
    intro j stj hj hstj
    obtain ⟨m, rfl⟩ := Nat.exists_eq_add_of_le hj
    rw [state_after_add, hstj] at hk
    exact (state_after_invariant m stj st (state_after_invariant j _ stj h0 hstj).1 hk).2
  · intro s
    exact ⟨_, allocate_eq s, push_all_invariant _ _ (create_sentence_struct_invariant 5)⟩
  · intro d h
    have := h.2.1
    constructor <;> intro <;> omega

theorem C6_witness :
    ∃ st, state_after 6 (initial_state "a b c d e f".toList) = some st ∧
      st.sentence_data.num_words = 6 ∧ st.sentence_data.sentence_size = 10 ∧
      collection_invariant st.sentence_data ∧
      (st.sentence_data.num_words ≥ st.sentence_data.sentence_size ↔
        st.sentence_data.num_words = st.sentence_data.sentence_size) :=
  ⟨_, rfl, rfl, rfl,
    (C6_collection_invariant.2.2.1 5 (some "a b c d e f".toList) 1 6 _ rfl).1,
    C6_collection_invariant.2.2.2.2 _
      (C6_collection_invariant.2.2.1 5 (some "a b c d e f".toList) 1 6 _ rfl).1⟩

/-! ## Normalization, degenerate inputs and the null pointer -/

theorem maximal_runs_chars (s : List Char) (h : ∀ c ∈ s, c ≠ NUL) :
    ∀ w ∈ maximal_runs s, w ≠ [] ∧ ∀ c ∈ w, is_word_char c = true := by
  rw [maximal_runs_eq_split_words, ← c_words_of_no_NUL s h]
  exact c_words_chars s

theorem spaced_no_NUL (ws : List (List Char))
    (h : ∀ w ∈ ws, w ≠ [] ∧ ∀ c ∈ w, is_word_char c = true) :
    ∀ c ∈ spaced ws, c ≠ NUL := by
  intro c hc
  simp only [spaced, List.mem_flatten, List.mem_map] at hc
  obtain ⟨l, ⟨w, hw, rfl⟩, hcl⟩ := hc
  rcases List.mem_append.mp hcl with hcw | hcs
  · exact is_word_char_ne_NUL c ((h w hw).2 c hcw)
  · rw [List.mem_singleton] at hcs
    rw [hcs]
    exact fun e => NUL_ne_SPACE e.symm

/-- C7, as amended. Taking as rendering the text `print_sentence` writes before
its final line feed (every token followed by one space), whitespace
normalization is idempotent: tokenizing the rendering of
`allocate_sentence_dynamically(s)` gives the same tokens, and rendering them
gives the same line again. -/
theorem C7_normalization_idempotent (s : List Char) (h : ∀ c ∈ s, c ≠ NUL) :
    ∃ d line, allocate_sentence_dynamically (some s) = .ok d ∧
      line = (List.map (fun w => w ++ [SPACE]) (maximal_runs s)).flatten ∧
      print_sentence (some d) = .ok (line ++ [NEWLINE]) ∧
      ∃ d2, allocate_sentence_dynamically (some line) = .ok d2 ∧
        tokens d2 = tokens d ∧
        print_sentence (some d2) = .ok (line ++ [NEWLINE]) := by
  obtain ⟨d, h1, _, h3, h4⟩ := allocate_tokens s
  rw [c_words_of_no_NUL s h, ← maximal_runs_eq_split_words] at h3 h4
  have hp := print_sentence_eq d (maximal_runs s) h3 h4
  have hch := maximal_runs_chars s h
  obtain ⟨d2, g1, _, g3, g4⟩ := allocate_tokens (spaced (maximal_runs s))
  rw [c_words_spaced _ hch] at g3 g4
  exact ⟨d, spaced (maximal_runs s), h1, rfl, hp, d2, g1, by rw [g4, h4],
    print_sentence_eq d2 (maximal_runs s) g3 g4⟩

theorem C7_witness :
    (∀ c ∈ " a  b ".toList, c ≠ NUL) ∧
    ∃ d d2, allocate_sentence_dynamically (some " a  b ".toList) = .ok d ∧
      print_sentence (some d) = .ok "a b \n".toList ∧
      allocate_sentence_dynamically (some "a b ".toList) = .ok d2 ∧
      tokens d2 = tokens d ∧
      print_sentence (some d2) = .ok "a b \n".toList := by
  obtain ⟨d, line, h1, h2, h3, d2, h4, h5, h6⟩ :=
    C7_normalization_idempotent " a  b ".toList (by decide)
  have hl : line = "a b ".toList := by rw [h2]; decide
  subst hl
  exact ⟨by decide, d, d2, h1, h3, h4, h5, h6⟩

/-- C7 as stated fails: the output of `print_sentence` for the text `hi` is
`hi`, a space and a line feed; tokenizing that output gives two tokens, `hi`
and the line feed, and printing them gives a different output. -/
theorem C7_counterexample :
    ∃ d out d2 out2, allocate_sentence_dynamically (some "hi".toList) = .ok d ∧
      print_sentence (some d) = .ok out ∧
      allocate_sentence_dynamically (some out) = .ok d2 ∧
      print_sentence (some d2) = .ok out2 ∧
      out = "hi \n".toList ∧ tokens d2 = [some "hi".toList, some "\n".toList] ∧
      out2 = "hi \n \n".toList ∧ out2 ≠ out :=
  ⟨_, _, _, _, rfl, rfl, rfl, rfl, by decide, by decide, by decide, by decide⟩

theorem c_words_all_spaces (n : Nat) : c_words (List.replicate n SPACE) = [] := by
  have := c_words_spaces_append (List.replicate n SPACE) []
    (fun c hc => List.eq_of_mem_replicate hc)
  simpa [c_words_nil] using this

theorem skip_spaces_all_spaces (n : Nat) : skip_spaces (List.replicate n SPACE) = [] := by
  induction n with
  | zero => rfl
  | succ m ih =>
    have h : SPACE ≠ NUL := fun e => NUL_ne_SPACE e.symm
    simp [List.replicate_succ, skip_spaces, h, ih]

/-- C8. All-space input: for a text of `n` spaces, `n ≥ 0`,
`allocate_sentence_dynamically` returns normally a collection with
`num_words = 0`, no stored string (every slot still `NULL`) and
`sentence_size = 5`. On the empty text the loop condition is false at once; on
one or more spaces the first iteration finds no word and leaves the loop by its
`break`, which is not an error. -/
theorem C8_all_space_input (n : Nat) :
    (∃ d, allocate_sentence_dynamically (some (List.replicate n SPACE)) = .ok d ∧
      d.num_words = 0 ∧ tokens d = [] ∧ d.sentence_size = 5 ∧
      ∀ p ∈ d.sentence, p = heap_ptr.null) ∧
    loop_cond (initial_state []) = false ∧
    loop_cond (initial_state (List.replicate (n + 1) SPACE)) = true ∧
    loop_body (initial_state (List.replicate (n + 1) SPACE)) = .ok none := by
  refine ⟨⟨_, allocate_eq _, ?_⟩, rfl, ?_, ?_⟩
  · rw [c_words_all_spaces]
    refine ⟨rfl, rfl, rfl, ?_⟩
    intro p hp
    exact List.eq_of_mem_replicate hp
  · have h : SPACE ≠ NUL := fun e => NUL_ne_SPACE e.symm
    simp [loop_cond, initial_state, List.replicate_succ, deref, h]
  · apply loop_body_break
    rw [if_neg (by decide), skip_spaces_all_spaces]
    rfl

/-- C9. Single word: for a non-empty text `s` with no space in it (and no NUL;
tabs, line feeds and all other characters are allowed),
`allocate_sentence_dynamically(s)` returns exactly one token, equal to `s`,
with `num_words = 1`. -/
theorem C9_single_word (s : List Char) (hne : s ≠ [])
    (h : ∀ c ∈ s, c ≠ SPACE ∧ c ≠ NUL) :
    ∃ d, allocate_sentence_dynamically (some s) = .ok d ∧
      d.num_words = 1 ∧ tokens d = [some s] := by
  obtain ⟨d, h1, _, h3, h4⟩ := allocate_tokens s
  have hw : ∀ c ∈ s, is_word_char c = true := by
    intro c hc
    have := h c hc
    simp [is_word_char, this.1, this.2]
  have hc := c_words_word_append s [] hne hw rfl
  rw [List.append_nil, c_words_nil] at hc
  rw [hc] at h3 h4
  exact ⟨d, h1, by simpa using h3, by simpa using h4⟩

theorem C9_witness :
    (∃ d, allocate_sentence_dynamically (some "hello".toList) = .ok d ∧
      d.num_words = 1 ∧ tokens d = [some "hello".toList]) ∧
    (∃ d, allocate_sentence_dynamically (some "a\tb\nc".toList) = .ok d ∧
      d.num_words = 1 ∧ tokens d = [some "a\tb\nc".toList]) :=
  ⟨C9_single_word "hello".toList (by decide) (by decide),
   C9_single_word "a\tb\nc".toList (by decide) (by decide)⟩

/-- C10. Null input is rejected: `allocate_sentence_dynamically` ends in
`exit(1)` when its argument is `NULL`, as `get_next_word_and_size` does, and,
allocation failures aside, only then: for every non-null text it returns a
collection. -/
theorem C10_null_input_rejected :
    allocate_sentence_dynamically none = .error failure.exit1 ∧
    (∀ f : Int, get_next_word_and_size none f = .error failure.exit1) ∧
    (∀ s : List Char, ∃ d, allocate_sentence_dynamically (some s) = .ok d) ∧
    (∀ x : Option (List Char),
      (∃ e, allocate_sentence_dynamically x = .error e) ↔ x = none) := by
  refine ⟨rfl, fun _ => rfl, fun s => ⟨_, allocate_eq s⟩, ?_⟩
  intro x
  cases x with
  | none => exact ⟨fun _ => rfl, fun _ => ⟨_, rfl⟩⟩
  | some s =>
    constructor
    · rintro ⟨e, he⟩
      rw [allocate_eq s] at he
      exact absurd he (by simp)
    · intro h
      exact absurd h (by simp)

/-! ## The contract of get_next_word_and_size and of the word copy -/

theorem run_spec (P : Char → Bool) (l : List Char) :
    l.drop (l.takeWhile P).length = l.dropWhile P ∧
    (∀ i, i < (l.takeWhile P).length → P (l.getD i NUL) = true) ∧
    (l.getD (l.takeWhile P).length NUL = NUL ∨
      P (l.getD (l.takeWhile P).length NUL) = false) := by
  induction l with
  | nil => simp
  | cons c r ih =>
    by_cases hc : P c = true
    · obtain ⟨h1, h2, h3⟩ := ih
      simp only [List.takeWhile_cons, hc, if_true, List.length_cons, List.drop_succ_cons,
        List.dropWhile_cons, List.getD_cons_succ]
      refine ⟨h1, ?_, h3⟩
      intro i hi
      cases i with
      | zero => simpa using hc
      | succ j => simpa using h2 j (by omega)
    · simp [List.takeWhile_cons, List.dropWhile_cons, hc]

theorem getD_drop (l : List Char) (a j : Nat) :
    (l.drop a).getD j NUL = l.getD (a + j) NUL := by
  simp [List.getD_eq_getElem?_getD, List.getElem?_drop]

theorem deref_eq_getD (l : List Char) : deref l = l.getD 0 NUL := by
  cases l <;> rfl

theorem is_word_char_iff (c : Char) : is_word_char c = true ↔ c ≠ SPACE ∧ c ≠ NUL := by
  simp [is_word_char, and_comm]

theorem is_word_char_NUL : is_word_char NUL = false := by decide

theorem get_next_word_and_size_total (p : List Char) (f : Int) :
    ∃ r, get_next_word_and_size (some p) f = .ok r := by
  rw [get_next_word_and_size_eq]
  by_cases h : deref (skip_spaces (if f = 0 then skip_word p else p)) = NUL
  · rw [if_pos h]; exact ⟨_, rfl⟩
  · rw [if_neg h]; exact ⟨_, rfl⟩

/-- C12. Contract of `get_next_word_and_size(sentence, &word_ptr, first)` on a
non-null `sentence`. There are offsets `a` and `b` such that: the `a`
characters from the pointer on are word characters (neither space nor the end
sentinel), `a` is 0 when `first` is set, and the run stops at offset `a` when
`first` is clear; the `b` characters that follow are spaces and the character
at offset `a + b` is not a space. If that character is the end sentinel the
result is no word (`word_ptr = NULL`, length 0). Otherwise `word_ptr` is the
pointer at offset `a + b` and the returned length `L ≥ 1` counts the word
characters from there: none of them a space, and the character at offset `L`
from the word start is a space or the end sentinel. -/
theorem C12_get_next_word_and_size_contract (p : List Char) (f : Int) :
    ∃ a b : Nat,
      (f ≠ 0 → a = 0) ∧
      (∀ i, i < a → p.getD i NUL ≠ SPACE ∧ p.getD i NUL ≠ NUL) ∧
      (f = 0 → p.getD a NUL = SPACE ∨ p.getD a NUL = NUL) ∧
      (∀ j, j < b → p.getD (a + j) NUL = SPACE) ∧
      p.getD (a + b) NUL ≠ SPACE ∧
      (p.getD (a + b) NUL = NUL →
        get_next_word_and_size (some p) f = .ok (none, 0)) ∧
      (p.getD (a + b) NUL ≠ NUL →
        ∃ L : Nat, get_next_word_and_size (some p) f =
            .ok (some (p.drop (a + b)), (L : Int)) ∧
          1 ≤ L ∧
          (∀ i, i < L → p.getD (a + b + i) NUL ≠ SPACE ∧ p.getD (a + b + i) NUL ≠ NUL) ∧
          (p.getD (a + b + L) NUL = SPACE ∨ p.getD (a + b + L) NUL = NUL)) := by
  have key : ∀ a : Nat, (if f = 0 then skip_word p else p) = p.drop a →
      ∃ b : Nat,
        (∀ j, j < b → p.getD (a + j) NUL = SPACE) ∧
        p.getD (a + b) NUL ≠ SPACE ∧
        (p.getD (a + b) NUL = NUL →
          get_next_word_and_size (some p) f = .ok (none, 0)) ∧
        (p.getD (a + b) NUL ≠ NUL →
          ∃ L : Nat, get_next_word_and_size (some p) f =
              .ok (some (p.drop (a + b)), (L : Int)) ∧
            1 ≤ L ∧
            (∀ i, i < L → p.getD (a + b + i) NUL ≠ SPACE ∧ p.getD (a + b + i) NUL ≠ NUL) ∧
            (p.getD (a + b + L) NUL = SPACE ∨ p.getD (a + b + L) NUL = NUL)) := by
    intro a ha
    obtain ⟨s1, s2, s3⟩ := run_spec (fun c => decide (c = SPACE)) (p.drop a)
    obtain ⟨w1, w2, w3⟩ := run_spec is_word_char
      ((p.drop a).drop ((p.drop a).takeWhile (fun c => decide (c = SPACE))).length)
    have hq : skip_spaces (if f = 0 then skip_word p else p) =
        p.drop (a + ((p.drop a).takeWhile (fun c => decide (c = SPACE))).length) := by
      rw [ha, skip_spaces_eq, ← s1, List.drop_drop, Nat.add_comm]
    have hd : (p.drop a).drop ((p.drop a).takeWhile (fun c => decide (c = SPACE))).length =
        p.drop (a + ((p.drop a).takeWhile (fun c => decide (c = SPACE))).length) := by
      rw [List.drop_drop, Nat.add_comm]
    rw [hd] at w1 w2 w3
    generalize ((p.drop a).takeWhile (fun c => decide (c = SPACE))).length = b at *
    simp only [getD_drop] at s2 s3 w2 w3
    have hns : p.getD (a + b) NUL ≠ SPACE := by
      rcases s3 with h | h
      · rw [h]; exact NUL_ne_SPACE
      · simpa using h
    refine ⟨b, fun j hj => by simpa using s2 j hj, hns, ?_, ?_⟩
    · intro h0
      rw [get_next_word_and_size_eq, hq, deref_eq_getD, getD_drop, Nat.add_zero, if_pos h0]
    · intro h0
      refine ⟨((p.drop (a + b)).takeWhile is_word_char).length, ?_, ?_, ?_, ?_⟩
      · rw [get_next_word_and_size_eq, hq, deref_eq_getD, getD_drop, Nat.add_zero, if_neg h0]
      · have hw : is_word_char (p.getD (a + b) NUL) = true :=
          (is_word_char_iff _).mpr ⟨hns, h0⟩
        by_contra hlt
        have hz : ((p.drop (a + b)).takeWhile is_word_char).length = 0 := by omega
        rw [hz, Nat.add_zero] at w3
        rcases w3 with h | h
        · exact h0 h
        · rw [hw] at h; exact absurd h (by decide)
      · intro i hi
        exact (is_word_char_iff _).mp (w2 i hi)
      · rcases w3 with h | h
        · exact Or.inr h
        · by_contra hcon
          push_neg at hcon
          rw [(is_word_char_iff _).mpr hcon] at h
          exact absurd h (by decide)
  by_cases hf : f = 0
  · obtain ⟨r1, r2, r3⟩ := run_spec is_word_char p
    obtain ⟨b, hb⟩ := key (p.takeWhile is_word_char).length
      (by rw [if_pos hf, skip_word_eq, r1])
    refine ⟨_, b, fun h => absurd hf h, fun i hi => (is_word_char_iff _).mp (r2 i hi), ?_, hb⟩
    intro _
    rcases r3 with h | h
    · exact Or.inr h
    · by_contra hcon
      push_neg at hcon
      rw [(is_word_char_iff _).mpr hcon] at h
      exact absurd h (by decide)
  · obtain ⟨b, hb⟩ := key 0 (by rw [if_neg hf]; rfl)
    exact ⟨0, b, fun _ => rfl, fun i hi => absurd hi (Nat.not_lt_zero i),
      fun h => absurd h hf, hb⟩

theorem C12_witness :
    get_next_word_and_size (some "ab  cd e".toList) 0 = .ok (some "cd e".toList, 2) ∧
    get_next_word_and_size (some "  cd e".toList) 1 = .ok (some "cd e".toList, 2) ∧
    get_next_word_and_size (some "e  ".toList) 0 = .ok (none, 0) ∧
    ∃ a b : Nat, ("ab  cd e".toList).getD (a + b) NUL ≠ SPACE ∧
      (∀ j, j < b → ("ab  cd e".toList).getD (a + j) NUL = SPACE) := by
  obtain ⟨a, b, _, _, _, h4, h5, _⟩ :=
    C12_get_next_word_and_size_contract "ab  cd e".toList 0
  exact ⟨rfl, rfl, rfl, a, b, h5, h4⟩

theorem get_next_word_and_size_length (p : List Char) (f : Int) (wp : Option (List Char))
    (L : Int) (h : get_next_word_and_size (some p) f = .ok (wp, L)) :
    (wp = none ∧ L = 0) ∨
      (∃ q, wp = some q ∧ deref q ≠ NUL ∧ deref q ≠ SPACE ∧
        L = ((q.takeWhile is_word_char).length : Int) ∧ 1 ≤ L) := by
  rw [get_next_word_and_size_eq] at h
  by_cases hq : deref (skip_spaces (if f = 0 then skip_word p else p)) = NUL
  · rw [if_pos hq] at h
    simp only [Except.ok.injEq, Prod.mk.injEq] at h
    exact Or.inl ⟨h.1.symm, h.2.symm⟩
  · rw [if_neg hq] at h
    simp only [Except.ok.injEq, Prod.mk.injEq] at h
    obtain ⟨c, r, hcr, hc⟩ := skip_spaces_word_start _ hq
    refine Or.inr ⟨_, h.1.symm, hq, ?_, h.2.symm, ?_⟩
    · rw [hcr]
      exact is_word_char_ne_SPACE c hc
    · rw [← h.2, hcr]
      simp [List.takeWhile_cons, hc]

/-- C13. `get_next_word_and_size` returns length 0 exactly when it reports no
word (`word_ptr = NULL`), and a length of at least 1 with every word. So the
call of `store_word_on_heap` in the loop of `allocate_sentence_dynamically`,
which gets what `get_next_word_and_size` returned, never takes its zero-length
branch (it returns a buffer, not `NULL`), and every token of the returned
collection is a non-empty string. -/
theorem C13_zero_length_iff_no_word :
    (∀ (p : List Char) (f : Int) (wp : Option (List Char)) (L : Int),
      get_next_word_and_size (some p) f = .ok (wp, L) →
      (L = 0 ↔ wp = none) ∧ (wp ≠ none → 1 ≤ L)) ∧
    (∀ (p : List Char) (f : Int) (w : List Char) (L : Int),
      get_next_word_and_size (some p) f = .ok (some w, L) →
      ∃ b, store_word_on_heap (some w) L = .ok (.buf b)) ∧
    (∀ s : List Char, ∃ d, allocate_sentence_dynamically (some s) = .ok d ∧
      ∀ t ∈ tokens d, ∃ w, t = some w ∧ w ≠ []) := by
  refine ⟨?_, ?_, ?_⟩
  · intro p f wp L h
    rcases get_next_word_and_size_length p f wp L h with ⟨h1, h2⟩ | ⟨q, h1, _, _, _, h5⟩
    · exact ⟨⟨fun _ => h1, fun _ => h2⟩, fun hne => absurd h1 hne⟩
    · refine ⟨⟨fun h0 => by omega, fun hn => ?_⟩, fun _ => h5⟩
      rw [h1] at hn
      exact absurd hn (by simp)
  · intro p f w L h
    rcases get_next_word_and_size_length p f (some w) L h with ⟨h1, _⟩ | ⟨q, _, _, _, _, h5⟩
    · exact absurd h1 (by simp)
    · have hL : ¬ L ≤ 0 := by omega
      refine ⟨strncpy (allocate_for_word (L + 1)) w L.toNat, ?_⟩
      simp only [store_word_on_heap, hL, if_false]
  · intro s
    obtain ⟨d, h1, _, _, h4⟩ := allocate_tokens s
    refine ⟨d, h1, ?_⟩
    intro t ht
    rw [h4] at ht
    obtain ⟨w, hw, rfl⟩ := List.mem_map.mp ht
    exact ⟨w, rfl, (c_words_chars s w hw).1⟩

theorem C13_witness :
    ((2 : Int) = 0 ↔ (some "cd e".toList) = none) ∧
    (∃ b, store_word_on_heap (some "cd e".toList) 2 = .ok (.buf b)) ∧
    (((0 : Int) = 0 ↔ (none : Option (List Char)) = none)) :=
  ⟨(C13_zero_length_iff_no_word.1 "ab  cd e".toList 0 (some "cd e".toList) 2 rfl).1,
   C13_zero_length_iff_no_word.2.1 "ab  cd e".toList 0 "cd e".toList 2 rfl,
   (C13_zero_length_iff_no_word.1 "e  ".toList 0 none 0 rfl).1⟩

theorem strncpy_take (n : Nat) (w : List Char) (hn : n ≤ w.length)
    (hw : ∀ c ∈ w.take n, c ≠ NUL) :
    strncpy (List.replicate (n + 1) NUL) w n = w.take n ++ [NUL] := by
  induction n generalizing w with
  | zero => rfl
  | succ m ih =>
    cases w with
    | nil => simp at hn
    | cons c r =>
      simp only [List.length_cons] at hn
      have hc : c ≠ NUL := hw c (by simp)
      have hr : ∀ x ∈ r.take m, x ≠ NUL := fun x hx => hw x (by simp [hx])
      rw [List.replicate_succ]
      simp only [strncpy, deref, hc, if_false, List.tail_cons, List.take_succ_cons,
        List.cons_append]
      rw [ih r (by omega) hr]

/-- C14. Word copy: for a non-null `word`, a `length > 0` and a source that
holds at least `length` characters other than NUL from `word` on,
`store_word_on_heap` returns a new buffer of `length + 1` characters: the first
`length` characters of the source, then the NUL terminator, so that the string
it holds is exactly these `length` characters. For `length ≤ 0` it copies
nothing and returns `NULL`, which is not an error. -/
theorem C14_word_copy :
    (∀ (w : List Char) (L : Int), 0 < L → L.toNat ≤ w.length →
      (∀ c ∈ w.take L.toNat, c ≠ NUL) →
      ∃ b, store_word_on_heap (some w) L = .ok (.buf b) ∧
        b = w.take L.toNat ++ [NUL] ∧
        (b.length : Int) = L + 1 ∧
        b.getLast? = some NUL ∧
        read_string b = some (w.take L.toNat) ∧
        ((w.take L.toNat).length : Int) = L) ∧
    (∀ (w : List Char) (L : Int), L ≤ 0 → store_word_on_heap (some w) L = .ok .null) := by
  constructor
  · intro w L hL hlen hw
    have hL2 : ¬ L ≤ 0 := by omega
    have hn : (L + 1).toNat = L.toNat + 1 := by omega
    refine ⟨w.take L.toNat ++ [NUL], ?_, rfl, ?_, by simp, read_string_word _ hw, ?_⟩
    · simp only [store_word_on_heap, hL2, if_false, allocate_for_word, hn]
      rw [strncpy_take L.toNat w hlen hw]
    · simp only [List.length_append, List.length_take, List.length_singleton]
      omega
    · simp only [List.length_take]
      omega
  · intro w L hL
    simp only [store_word_on_heap, hL, if_true]

theorem C14_witness :
    store_word_on_heap (some "there! you".toList) 6 = .ok (.buf ("there!".toList ++ [NUL])) ∧
    read_string ("there!".toList ++ [NUL]) = some "there!".toList ∧
    store_word_on_heap (some "there!".toList) 0 = .ok .null := by
  obtain ⟨b, h1, h2, _, _, h5, _⟩ :=
    C14_word_copy.1 "there! you".toList 6 (by decide) (by decide) (by decide)
  subst h2
  exact ⟨h1, h5, C14_word_copy.2 _ 0 (by decide)⟩

/-! ## The append step, the initial collection and termination -/

theorem loop_body_some (st st2 : loop_state) (hd : well_formed st.sentence_data)
    (hb : loop_body st = .ok (some st2)) :
    ∃ p q, st.sentence = some p ∧
      q = skip_spaces (if st.first_word_signal = 0 then skip_word p else p) ∧
      deref q ≠ NUL ∧
      st2 = ⟨some q, push_word st.sentence_data (q.takeWhile is_word_char), 0⟩ := by
  obtain ⟨p, d, f⟩ := st
  cases p with
  | none => simp [loop_body, get_next_word_and_size] at hb
  | some p =>
    by_cases hq : deref (skip_spaces (if f = 0 then skip_word p else p)) = NUL
    · rw [loop_body_break p d f hq] at hb
      simp at hb
    · rw [loop_body_word p d f hd hq] at hb
      simp only [Except.ok.injEq, Option.some.injEq] at hb
      exact ⟨p, _, rfl, rfl, hq, hb.symm⟩

/-- C15. Append step: an iteration of the loop of
`allocate_sentence_dynamically` that finds a word `w`, started in a state that
satisfies the collection invariant with count `c` and capacity `p`, ends with
count `c + 1`, the slots `0..c-1` and their tokens as they were and in the same
order, the copy of `w` in slot `c`, and capacity `2 * p` if `c = p` and `p`
otherwise. -/
theorem C15_append_step (st st2 : loop_state)
    (hinv : collection_invariant st.sentence_data)
    (hb : loop_body st = .ok (some st2)) :
    ∃ q w, get_next_word_and_size st.sentence st.first_word_signal =
          .ok (some q, (w.length : Int)) ∧
      w = q.takeWhile is_word_char ∧ w ≠ [] ∧
      st2.sentence_data.num_words = st.sentence_data.num_words + 1 ∧
      st2.sentence_data.sentence.take st.sentence_data.num_words.toNat =
        st.sentence_data.sentence.take st.sentence_data.num_words.toNat ∧
      st2.sentence_data.sentence.get? st.sentence_data.num_words.toNat =
        some (.buf (w ++ [NUL])) ∧
      tokens st2.sentence_data = tokens st.sentence_data ++ [some w] ∧
      st2.sentence_data.sentence_size =
        (if st.sentence_data.num_words = st.sentence_data.sentence_size
          then 2 * st.sentence_data.sentence_size else st.sentence_data.sentence_size) := by
  have hwf := well_formed_of_invariant _ hinv
  obtain ⟨p, q, hp, hq, hne, rfl⟩ := loop_body_some st st2 hwf hb
  obtain ⟨c, r, hcr, hc⟩ := skip_spaces_word_start _ (hq ▸ hne)
  have htake := take_push_word st.sentence_data (q.takeWhile is_word_char) hwf
  have hnul : ∀ x ∈ q.takeWhile is_word_char, x ≠ NUL :=
    fun x hx => is_word_char_ne_NUL x (List.mem_takeWhile_imp hx)
  have hlen : st.sentence_data.num_words.toNat <
      (push_word st.sentence_data (q.takeWhile is_word_char)).sentence.length := by
    have h1 := (push_word_well_formed st.sentence_data (q.takeWhile is_word_char) hwf)
    have h2 := num_words_push_word st.sentence_data (q.takeWhile is_word_char)
    obtain ⟨a1, a2, a3, a4⟩ := h1
    have := hinv.1
    omega
  refine ⟨q, q.takeWhile is_word_char, ?_, rfl, ?_, num_words_push_word _ _, ?_, ?_,
    tokens_push_word _ _ hwf hnul, ?_⟩
  · rw [hp, get_next_word_and_size_eq, ← hq, if_neg hne]
  · rw [hq, hcr]
    simp [List.takeWhile_cons, hc]
  · have := congrArg (List.take st.sentence_data.num_words.toNat) htake
    have hle : st.sentence_data.num_words.toNat ≤
        (st.sentence_data.sentence.take st.sentence_data.num_words.toNat).length := by
      have b1 := hwf.1
      have b2 := hwf.2.2.1
      have b3 := hwf.2.1
      simp only [List.length_take]
      omega
    rw [List.take_take, Nat.min_eq_left (Nat.le_succ _),
      List.take_append_of_le_length hle] at this
    rw [this, List.take_take, Nat.min_self]
  · have h1 : ((push_word st.sentence_data (q.takeWhile is_word_char)).sentence.take
        (st.sentence_data.num_words.toNat + 1))[st.sentence_data.num_words.toNat]? =
        some (.buf (q.takeWhile is_word_char ++ [NUL])) := by
      rw [htake, List.getElem?_append_right (by simp [List.length_take])]
      have : st.sentence_data.num_words.toNat ≤ st.sentence_data.sentence.length := by
        have := hwf.1; have := hwf.2.2.1; have := hwf.2.1; omega
      simp [List.length_take, Nat.min_eq_left this]
    rw [List.getElem?_take] at h1
    simpa using h1
  · rw [sentence_size_push_word]
    have h1 := hinv.2.1
    by_cases he : st.sentence_data.num_words = st.sentence_data.sentence_size
    · rw [if_pos he, if_pos (by omega)]; omega
    · rw [if_neg he, if_neg (by omega)]

theorem C15_witness :
    collection_invariant ⟨1, 1, [.buf ("e".toList ++ [NUL])]⟩ ∧
    loop_body ⟨some "e f".toList, ⟨1, 1, [.buf ("e".toList ++ [NUL])]⟩, 0⟩ =
      .ok (some ⟨some "f".toList,
        ⟨2, 2, [.buf ("e".toList ++ [NUL]), .buf ("f".toList ++ [NUL])]⟩, 0⟩) ∧
    tokens ⟨2, 2, [.buf ("e".toList ++ [NUL]), .buf ("f".toList ++ [NUL])]⟩ =
      [some "e".toList, some "f".toList] := by
  obtain ⟨q, w, h1, h2, _, _, _, _, h7, _⟩ :=
    C15_append_step ⟨some "e f".toList, ⟨1, 1, [.buf ("e".toList ++ [NUL])]⟩, 0⟩
      ⟨some "f".toList, ⟨2, 2, [.buf ("e".toList ++ [NUL]), .buf ("f".toList ++ [NUL])]⟩, 0⟩
      (by decide) rfl
  exact ⟨by decide, rfl, by decide⟩

/-- C16. Initial collection: `create_sentence_struct(n)` returns a collection
with `num_words = 0` and `sentence_size = n` when `n > 0`, `sentence_size = 5`
when `n ≤ 0`, every slot `NULL`; `allocate_sentence_dynamically` enters its loop
with the collection `create_sentence_struct(5)`, of capacity 5. -/
theorem C16_initial_collection :
    (∀ n : Int, (create_sentence_struct n).num_words = 0 ∧
      (0 < n → (create_sentence_struct n).sentence_size = n) ∧
      (n ≤ 0 → (create_sentence_struct n).sentence_size = 5) ∧
      (create_sentence_struct n).sentence.length =
        (create_sentence_struct n).sentence_size.toNat ∧
      ∀ p ∈ (create_sentence_struct n).sentence, p = heap_ptr.null) ∧
    (∀ s : List Char,
      allocate_sentence_dynamically (some s) = loop (s.length + 2) (initial_state s) ∧
      (initial_state s).sentence_data = create_sentence_struct 5 ∧
      (initial_state s).sentence_data.sentence_size = 5 ∧
      (initial_state s).sentence_data.num_words = 0) := by
  refine ⟨?_, fun s => ⟨rfl, rfl, rfl, rfl⟩⟩
  intro n
  by_cases h : n ≤ 0
  · refine ⟨rfl, fun h0 => by omega, fun _ => ?_, ?_, ?_⟩
    · simp [create_sentence_struct, h]
    · simp [create_sentence_struct, h]
    · intro p hp
      simp only [create_sentence_struct, h, if_true] at hp
      exact List.eq_of_mem_replicate hp
  · refine ⟨rfl, fun _ => ?_, fun h0 => absurd h0 h, ?_, ?_⟩
    · simp [create_sentence_struct, h]
    · simp [create_sentence_struct, h]
    · intro p hp
      simp only [create_sentence_struct, h, if_false] at hp
      exact List.eq_of_mem_replicate hp

theorem C16_witness :
    (create_sentence_struct 7).sentence_size = 7 ∧
    (create_sentence_struct 0).sentence_size = 5 ∧
    (create_sentence_struct (-3)).sentence_size = 5 ∧
    (create_sentence_struct 7).num_words = 0 :=
  ⟨(C16_initial_collection.1 7).2.1 (by decide),
   (C16_initial_collection.1 0).2.2.1 (by decide),
   (C16_initial_collection.1 (-3)).2.2.1 (by decide),
   (C16_initial_collection.1 7).1⟩

theorem state_after_succ (k : Nat) (x : loop_state) :
    state_after (k + 1) x =
      if loop_cond x then
        match loop_body x with
        | .ok (some st2) => state_after k st2
        | _ => none
      else none := rfl

theorem state_after_rest_none (n : Nat) (p : List Char) (d : sentence_t)
    (hd : well_formed d) (hn : (c_words (skip_word p)).length = n) :
    state_after (n + 1) ⟨some p, d, 0⟩ = none := by
  induction n generalizing p d with
  | zero =>
    rw [state_after_succ]
    by_cases hc : loop_cond ⟨some p, d, 0⟩ = true
    · rw [if_pos hc]
      by_cases hq : deref (skip_spaces (if (0 : Int) = 0 then skip_word p else p)) = NUL
      · rw [loop_body_break p d 0 hq]
      · obtain ⟨c, r, hcr, hcw⟩ := skip_spaces_word_start _ hq
        rw [if_pos rfl] at hcr
        have hw : c_words (skip_word p) =
            (c :: r).takeWhile is_word_char :: c_words (skip_word (c :: r)) := by
          rw [← c_words_skip_spaces, hcr]
          exact c_words_word_start c r hcw
        rw [hw] at hn
        simp at hn
    · rw [if_neg hc]
  | succ m ih =>
    rw [state_after_succ]
    by_cases hc : loop_cond ⟨some p, d, 0⟩ = true
    · rw [if_pos hc]
      by_cases hq : deref (skip_spaces (if (0 : Int) = 0 then skip_word p else p)) = NUL
      · rw [loop_body_break p d 0 hq]
      · rw [loop_body_word p d 0 hd hq]
        obtain ⟨c, r, hcr, hcw⟩ := skip_spaces_word_start _ hq
        rw [if_pos rfl] at hcr ⊢
        have hw : c_words (skip_word p) =
            (c :: r).takeWhile is_word_char :: c_words (skip_word (c :: r)) := by
          rw [← c_words_skip_spaces, hcr]
          exact c_words_word_start c r hcw
        rw [hw] at hn
        simp only [List.length_cons, Nat.add_right_cancel_iff] at hn
        rw [hcr]
        exact ih (c :: r) _ (push_word_well_formed d _ hd) hn
    · rw [if_neg hc]

theorem state_after_first_none (s : List Char) (d : sentence_t) (hd : well_formed d) :
    state_after ((c_words s).length + 1) ⟨some s, d, 1⟩ = none := by
  rw [state_after_succ]
  by_cases hc : loop_cond ⟨some s, d, 1⟩ = true
  · rw [if_pos hc]
    by_cases hq : deref (skip_spaces (if (1 : Int) = 0 then skip_word s else s)) = NUL
    · rw [loop_body_break s d 1 hq]
    · rw [loop_body_word s d 1 hd hq]
      obtain ⟨c, r, hcr, hcw⟩ := skip_spaces_word_start _ hq
      rw [if_neg (by decide)] at hcr ⊢
      have hw : c_words s =
          (c :: r).takeWhile is_word_char :: c_words (skip_word (c :: r)) := by
        rw [← c_words_skip_spaces, hcr]
        exact c_words_word_start c r hcw
      rw [hw, hcr]
      simp only [List.length_cons]
      exact state_after_rest_none _ (c :: r) _ (push_word_well_formed d _ hd) rfl
  · rw [if_neg hc]

theorem skip_word_length_le (p : List Char) : (skip_word p).length ≤ p.length := by
  rw [skip_word_eq]
  exact (List.dropWhile_sublist is_word_char).length_le

theorem skip_spaces_length_le (p : List Char) : (skip_spaces p).length ≤ p.length := by
  rw [skip_spaces_eq]
  exact (List.dropWhile_sublist _).length_le

theorem next_word_strictly_later (p q : List Char)
    (hq : q = skip_spaces (skip_word p)) (hne : deref q ≠ NUL) :
    q.length < p.length ∧ ∃ k, 0 < k ∧ q = p.drop k := by
  have hlt : q.length < p.length := by
    cases p with
    | nil => rw [hq] at hne; exact absurd rfl hne
    | cons c r =>
      by_cases h0 : c = NUL
      · rw [hq] at hne
        simp [skip_word, skip_spaces, h0, deref] at hne
      · by_cases h1 : c = SPACE
        · subst h1
          have hsn : SPACE ≠ NUL := fun e => NUL_ne_SPACE e.symm
          have hq2 : q = skip_spaces r := by
            rw [hq]; simp [skip_word, skip_spaces, hsn]
          have := skip_spaces_length_le r
          rw [hq2]
          simp only [List.length_cons]
          omega
        · have hq2 : q = skip_spaces (skip_word r) := by
            rw [hq]; simp [skip_word, h0, h1]
          have h2 := skip_spaces_length_le (skip_word r)
          have h3 := skip_word_length_le r
          rw [hq2]
          simp only [List.length_cons]
          omega
  refine ⟨hlt, ?_⟩
  obtain ⟨r1, _, _⟩ := run_spec is_word_char p
  obtain ⟨s1, _, _⟩ := run_spec (fun c => decide (c = SPACE)) (p.dropWhile is_word_char)
  have hk : q = p.drop ((p.takeWhile is_word_char).length +
      ((p.dropWhile is_word_char).takeWhile (fun c => decide (c = SPACE))).length) := by
    rw [hq, skip_spaces_eq, skip_word_eq, ← s1, ← r1, List.drop_drop, Nat.add_comm]
  refine ⟨_, ?_, hk⟩
  by_contra h0
  have hz : (p.takeWhile is_word_char).length +
      ((p.dropWhile is_word_char).takeWhile (fun c => decide (c = SPACE))).length = 0 := by
    omega
  rw [hz, List.drop_zero] at hk
  rw [hk] at hlt
  exact absurd hlt (Nat.lt_irrefl _)

/-- C17. Termination. `get_next_word_and_size` returns on every non-null
pointer. The loop of `allocate_sentence_dynamically` on a text of `n` words
ends within `n + 1` iterations: with that many iterations allowed, or more, it
returns the collection, and there is no full iteration number `n + 1`. After
the first iteration (`first_word_signal` clear) every call of
`get_next_word_and_size` reports no word or a word start strictly later in the
text than the pointer it was given. -/
theorem C17_termination :
    (∀ (p : List Char) (f : Int), ∃ r, get_next_word_and_size (some p) f = .ok r) ∧
    (∀ (s : List Char) (fuel : Nat), (maximal_runs (c_string s)).length + 1 ≤ fuel →
      ∃ d, loop fuel (initial_state s) = .ok d ∧
        allocate_sentence_dynamically (some s) = .ok d) ∧
    (∀ s : List Char,
      state_after ((maximal_runs (c_string s)).length + 1) (initial_state s) = none) ∧
    (∀ (p : List Char) (wp : Option (List Char)) (L : Int),
      get_next_word_and_size (some p) 0 = .ok (wp, L) →
      wp = none ∨ ∃ q k, wp = some q ∧ 0 < k ∧ q = p.drop k ∧ q.length < p.length) := by
  have hruns : ∀ s : List Char, maximal_runs (c_string s) = c_words s := fun s => by
    rw [maximal_runs_eq_split_words]; rfl
  refine ⟨get_next_word_and_size_total, ?_, ?_, ?_⟩
  · intro s fuel hf
    rw [hruns] at hf
    exact ⟨_, loop_first fuel s _ (create_sentence_struct_well_formed 5) hf, allocate_eq s⟩
  · intro s
    rw [hruns]
    exact state_after_first_none s _ (create_sentence_struct_well_formed 5)
  · intro p wp L h
    rw [get_next_word_and_size_eq, if_pos rfl] at h
    by_cases hq : deref (skip_spaces (skip_word p)) = NUL
    · rw [if_pos hq] at h
      simp only [Except.ok.injEq, Prod.mk.injEq] at h
      exact Or.inl h.1.symm
    · rw [if_neg hq] at h
      simp only [Except.ok.injEq, Prod.mk.injEq] at h
      obtain ⟨hlt, k, hk, hd⟩ := next_word_strictly_later p _ rfl hq
      exact Or.inr ⟨_, k, h.1.symm, hk, hd, hlt⟩

theorem C17_witness :
    (∃ d, loop 3 (initial_state "hi  you".toList) = .ok d ∧ d.num_words = 2) ∧
    loop 2 (initial_state "hi  you".toList) = .error failure.out_of_fuel ∧
    state_after 3 (initial_state "hi  you".toList) = none ∧
    (some "you".toList = none ∨ ∃ q k, some "you".toList = some q ∧ 0 < k ∧
      q = "hi  you".toList.drop k ∧ q.length < "hi  you".toList.length) := by
  obtain ⟨d, h1, _⟩ := C17_termination.2.1 "hi  you".toList 3 (by decide)
  refine ⟨⟨d, h1, ?_⟩, rfl, rfl, C17_termination.2.2.2 "hi  you".toList _ 3 rfl⟩
  have : loop 3 (initial_state "hi  you".toList) =
      .ok ⟨5, 2, [.buf ("hi".toList ++ [NUL]), .buf ("you".toList ++ [NUL]),
        .null, .null, .null]⟩ := rfl
  rw [this] at h1
  simp only [Except.ok.injEq] at h1
  rw [← h1]

/-! ## Concatenation and conservation of characters -/

theorem c_words_concat (a b : List Char) (ha : ∀ c ∈ a, c ≠ NUL) :
    c_words (a ++ SPACE :: b) = c_words a ++ c_words b := by
  have hstop := takeWhile_word_char_SPACE b
  revert ha
  induction a using c_words_induct with
  | hnul p hp =>
    intro ha
    cases p with
    | nil => rw [List.nil_append, c_words_SPACE, c_words_nil, List.nil_append]
    | cons c r =>
      simp only [deref] at hp
      exact absurd hp (ha c (List.mem_cons_self _ _))
  | hsp r ih =>
    intro ha
    rw [List.cons_append, c_words_SPACE, c_words_SPACE]
    exact ih (fun c hc => ha c (List.mem_cons_of_mem _ hc))
  | hw c r hc ih =>
    intro ha
    have hd : ∀ x ∈ r.dropWhile is_word_char, x ≠ NUL := fun x hx =>
      ha x (List.mem_cons_of_mem _ ((List.dropWhile_sublist is_word_char).subset hx))
    rw [List.cons_append, c_words_cons c _ hc, c_words_cons c _ hc,
      takeWhile_append_of_stop r _ hstop, dropWhile_append_of_stop r _ hstop, ih hd,
      List.cons_append]

/-- C18. Concatenation: for texts `a` and `b`, `a` free of NUL, the tokens of
`allocate_sentence_dynamically` on `a`, a space, `b` are the tokens of `a`
followed by the tokens of `b`, and `num_words` is the sum of the two counts. -/
theorem C18_concatenation (a b : List Char) (ha : ∀ c ∈ a, c ≠ NUL) :
    ∃ da db dab, allocate_sentence_dynamically (some a) = .ok da ∧
      allocate_sentence_dynamically (some b) = .ok db ∧
      allocate_sentence_dynamically (some (a ++ [SPACE] ++ b)) = .ok dab ∧
      tokens dab = tokens da ++ tokens db ∧
      dab.num_words = da.num_words + db.num_words := by
  obtain ⟨da, a1, _, a3, a4⟩ := allocate_tokens a
  obtain ⟨db, b1, _, b3, b4⟩ := allocate_tokens b
  obtain ⟨dab, c1, _, c3, c4⟩ := allocate_tokens (a ++ [SPACE] ++ b)
  have hc : c_words (a ++ [SPACE] ++ b) = c_words a ++ c_words b := by
    rw [List.append_assoc, List.singleton_append]
    exact c_words_concat a b ha
  rw [hc] at c3 c4
  refine ⟨da, db, dab, a1, b1, c1, ?_, ?_⟩
  · rw [c4, a4, b4, List.map_append]
  · rw [c3, a3, b3, List.length_append]
    push_cast
    rfl

theorem C18_witness :
    ∃ da db dab, allocate_sentence_dynamically (some " hi you".toList) = .ok da ∧
      allocate_sentence_dynamically (some "a  b ".toList) = .ok db ∧
      allocate_sentence_dynamically (some " hi you a  b ".toList) = .ok dab ∧
      tokens dab = tokens da ++ tokens db ∧
      dab.num_words = da.num_words + db.num_words ∧ dab.num_words = 4 := by
  obtain ⟨da, db, dab, h1, h2, h3, h4, h5⟩ :=
    C18_concatenation " hi you".toList "a  b ".toList (by decide)
  refine ⟨da, db, dab, h1, h2, h3, h4, h5, ?_⟩
  have e : allocate_sentence_dynamically (some (" hi you".toList ++ [SPACE] ++ "a  b ".toList)) =
      .ok ⟨5, 4, [.buf ("hi".toList ++ [NUL]), .buf ("you".toList ++ [NUL]),
        .buf ("a".toList ++ [NUL]), .buf ("b".toList ++ [NUL]), .null]⟩ := rfl
  rw [e] at h3
  simp only [Except.ok.injEq] at h3
  rw [← h3]

theorem c_string_append (w p : List Char) (hw : ∀ c ∈ w, c ≠ NUL) :
    c_string (w ++ p) = w ++ c_string p := by
  unfold c_string
  rw [List.takeWhile_append_of_pos (by simpa using hw)]

theorem c_words_flatten (p : List Char) :
    (c_words p).flatten = (c_string p).filter (fun c => decide (c ≠ SPACE)) := by
  induction p using c_words_induct with
  | hnul p hp =>
    rw [c_words_of_deref_NUL p hp]
    cases p with
    | nil => rfl
    | cons c r =>
      simp only [deref] at hp
      subst hp
      simp [c_string]
  | hsp r ih =>
    have hsn : SPACE ≠ NUL := fun e => NUL_ne_SPACE e.symm
    have hc : c_string (SPACE :: r) = SPACE :: c_string r := by
      simp [c_string, List.takeWhile_cons, hsn]
    rw [c_words_SPACE, ih, hc]
    simp
  | hw c r hc ih =>
    have h0 := is_word_char_ne_NUL c hc
    have h1 := is_word_char_ne_SPACE c hc
    have hcs : c_string (c :: r) = c :: c_string r := by
      simp [c_string, List.takeWhile_cons, h0]
    have hsplit : c_string r =
        r.takeWhile is_word_char ++ c_string (r.dropWhile is_word_char) := by
      conv_lhs => rw [← List.takeWhile_append_dropWhile is_word_char r]
      exact c_string_append _ _
        (fun x hx => is_word_char_ne_NUL x (List.mem_takeWhile_imp hx))
    have hfil : (r.takeWhile is_word_char).filter (fun c => decide (c ≠ SPACE)) =
        r.takeWhile is_word_char := by
      rw [List.filter_eq_self]
      intro x hx
      simpa using is_word_char_ne_SPACE x (List.mem_takeWhile_imp hx)
    rw [c_words_cons c r hc, List.flatten_cons, ih, hcs, List.filter_cons, hsplit,
      List.filter_append, hfil]
    simp [h1]

/-- C19. Nothing lost or invented: for every text `s` free of NUL, the tokens
of `allocate_sentence_dynamically(s)` concatenated in order are `s` with every
space removed; no token contains a space, and the lengths of the tokens add up
to the number of non-space characters of `s`. -/
theorem C19_nothing_lost_or_invented (s : List Char) (h : ∀ c ∈ s, c ≠ NUL) :
    ∃ (d : sentence_t) (ws : List (List Char)),
      allocate_sentence_dynamically (some s) = .ok d ∧
      tokens d = ws.map some ∧
      ws.flatten = s.filter (fun c => decide (c ≠ SPACE)) ∧
      (∀ w ∈ ws, SPACE ∉ w) ∧
      (ws.map List.length).sum = s.countP (fun c => decide (c ≠ SPACE)) := by
  obtain ⟨d, h1, _, _, h4⟩ := allocate_tokens s
  have hf := c_words_flatten s
  rw [c_string_of_no_NUL s h] at hf
  refine ⟨d, c_words s, h1, h4, hf, ?_, ?_⟩
  · intro w hw hmem
    exact is_word_char_ne_SPACE SPACE ((c_words_chars s w hw).2 SPACE hmem) rfl
  · rw [← List.length_flatten, hf, List.countP_eq_length_filter]

theorem C19_witness :
    ∃ (d : sentence_t) (ws : List (List Char)),
      allocate_sentence_dynamically (some "  hi  there  ".toList) = .ok d ∧
      tokens d = ws.map some ∧
      ws.flatten = "hithere".toList ∧
      (ws.map List.length).sum = 7 := by
  obtain ⟨d, ws, h1, h2, h3, _, h5⟩ :=
    C19_nothing_lost_or_invented "  hi  there  ".toList (by decide)
  exact ⟨d, ws, h1, h2, by rw [h3]; decide, by rw [h5]; decide⟩

/-! ## Heap operations -/

theorem mem_lookup_lt (h : Mem.heap) (a : Nat) (b : Mem.block)
    (hl : Mem.lookup h a = some b) : a < h.cells.length := by
  by_contra hge
  have : Mem.lookup h a = none := by
    unfold Mem.lookup
    exact List.getD_eq_default _ _ (by omega)
  rw [this] at hl
  exact absurd hl (by simp)

theorem mem_lookup_alloc (h : Mem.heap) (b : Mem.block) (x : Nat) :
    Mem.lookup (Mem.alloc h b).2 x = if x = h.cells.length then some b else Mem.lookup h x := by
  unfold Mem.lookup Mem.alloc
  simp only [List.getD_eq_getElem?_getD]
  by_cases hx : x = h.cells.length
  · subst hx
    simp
  · rw [if_neg hx]
    by_cases hlt : x < h.cells.length
    · rw [List.getElem?_append_left hlt]
    · rw [List.getElem?_eq_none (by simp; omega), List.getElem?_eq_none (by omega)]

theorem mem_lookup_store (h : Mem.heap) (a : Nat) (b : Mem.block) (x : Nat)
    (ha : a < h.cells.length) :
    Mem.lookup (Mem.store h a b) x = if x = a then some b else Mem.lookup h x := by
  unfold Mem.lookup Mem.store
  simp only [List.getD_eq_getElem?_getD, List.getElem?_set]
  by_cases hx : x = a
  · subst hx
    simp [ha]
  · have : ¬ a = x := fun e => hx e.symm
    simp [hx, this]

theorem mem_lookup_release (h : Mem.heap) (a x : Nat) :
    Mem.lookup (Mem.release h a) x = if x = a then none else Mem.lookup h x := by
  unfold Mem.lookup Mem.release
  simp only [List.getD_eq_getElem?_getD, List.getElem?_set]
  by_cases hx : x = a
  · subst hx
    by_cases hlt : x < h.cells.length
    · simp [hlt]
    · simp [hlt]
  · have : ¬ a = x := fun e => hx e.symm
    simp [hx, this]

theorem mem_length_alloc (h : Mem.heap) (b : Mem.block) :
    (Mem.alloc h b).2.cells.length = h.cells.length + 1 := by
  simp [Mem.alloc]

theorem mem_length_store (h : Mem.heap) (a : Nat) (b : Mem.block) :
    (Mem.store h a b).cells.length = h.cells.length := by
  simp [Mem.store]

theorem mem_length_release (h : Mem.heap) (a : Nat) :
    (Mem.release h a).cells.length = h.cells.length := by
  simp [Mem.release]

theorem mem_frees_alloc (h : Mem.heap) (b : Mem.block) :
    (Mem.alloc h b).2.frees = h.frees := rfl

theorem mem_frees_store (h : Mem.heap) (a : Nat) (b : Mem.block) :
    (Mem.store h a b).frees = h.frees := rfl

theorem mem_frees_release (h : Mem.heap) (a : Nat) :
    (Mem.release h a).frees = h.frees := rfl

theorem mem_alloc_fst (h : Mem.heap) (b : Mem.block) :
    (Mem.alloc h b).1 = .addr h.cells.length := rfl

theorem mem_read_record (h : Mem.heap) (r : Nat) (size num : Int) (arr : Mem.ptr)
    (hr : Mem.lookup h r = some (.record size num arr)) :
    Mem.read_record h (.addr r) = .ok ⟨size, num, arr⟩ := by
  simp only [Mem.read_record, hr]

theorem mem_set_sentence_size (h : Mem.heap) (r : Nat) (size num v : Int) (arr : Mem.ptr)
    (hr : Mem.lookup h r = some (.record size num arr)) :
    Mem.set_sentence_size h (.addr r) v = .ok (Mem.store h r (.record v num arr)) := by
  simp only [Mem.set_sentence_size, hr]

theorem mem_set_num_words (h : Mem.heap) (r : Nat) (size num v : Int) (arr : Mem.ptr)
    (hr : Mem.lookup h r = some (.record size num arr)) :
    Mem.set_num_words h (.addr r) v = .ok (Mem.store h r (.record size v arr)) := by
  simp only [Mem.set_num_words, hr]

theorem mem_set_sentence (h : Mem.heap) (r : Nat) (size num : Int) (arr v : Mem.ptr)
    (hr : Mem.lookup h r = some (.record size num arr)) :
    Mem.set_sentence h (.addr r) v = .ok (Mem.store h r (.record size num v)) := by
  simp only [Mem.set_sentence, hr]

theorem mem_store_word (h : Mem.heap) (q : List Char) (c : Char) (t : List Char)
    (hq : q = c :: t) (hc : is_word_char c = true) :
    ∃ h1, Mem.store_word_on_heap h (some q) ((q.takeWhile is_word_char).length : Int) =
        .ok (.addr h.cells.length, h1) ∧
      Mem.lookup h1 h.cells.length = some (.chars (q.takeWhile is_word_char ++ [NUL])) ∧
      (∀ x, x ≠ h.cells.length → Mem.lookup h1 x = Mem.lookup h x) ∧
      h1.cells.length = h.cells.length + 1 ∧ h1.frees = h.frees := by
  have hlen : ¬ (((q.takeWhile is_word_char).length : Int) ≤ 0) := by
    rw [hq]; simp [List.takeWhile_cons, hc]
  have hn : ((q.takeWhile is_word_char).length + 1 : Int).toNat =
      (q.takeWhile is_word_char).length + 1 := by omega
  have hl : Mem.lookup (Mem.alloc h (.chars (List.replicate
      ((q.takeWhile is_word_char).length + 1) NUL))).2 h.cells.length =
      some (.chars (List.replicate ((q.takeWhile is_word_char).length + 1) NUL)) := by
    rw [mem_lookup_alloc, if_pos rfl]
  refine ⟨Mem.store (Mem.alloc h (.chars (List.replicate
      ((q.takeWhile is_word_char).length + 1) NUL))).2 h.cells.length
      (.chars (q.takeWhile is_word_char ++ [NUL])), ?_, ?_, ?_, ?_, rfl⟩
  · simp only [Mem.store_word_on_heap, hlen, if_false, Mem.allocate_for_word, hn,
      mem_alloc_fst, Mem.modify_chars, hl, Int.toNat_natCast, strncpy_word]
  · rw [mem_lookup_store _ _ _ _ (by rw [mem_length_alloc]; omega), if_pos rfl]
  · intro x hx
    rw [mem_lookup_store _ _ _ _ (by rw [mem_length_alloc]; omega), if_neg hx,
      mem_lookup_alloc, if_neg hx]
  · rw [mem_length_store, mem_length_alloc]

theorem mem_append (h : Mem.heap) (r arr : Nat) (size num : Int) (sl : List Mem.ptr)
    (v : Mem.ptr)
    (hr : Mem.lookup h r = some (.record size num (.addr arr)))
    (ha : Mem.lookup h arr = some (.slots sl))
    (h0 : 0 ≤ num) (hlt : num.toNat < sl.length) :
    ∃ h1, Mem.append h (.addr r) v = .ok h1 ∧
      Mem.lookup h1 r = some (.record size (num + 1) (.addr arr)) ∧
      Mem.lookup h1 arr = some (.slots (sl.set num.toNat v)) ∧
      (∀ x, x ≠ r → x ≠ arr → Mem.lookup h1 x = Mem.lookup h x) ∧
      h1.cells.length = h.cells.length ∧ h1.frees = h.frees := by
  have hra : r ≠ arr := by
    intro e; rw [e, ha] at hr; simp at hr
  have hrl := mem_lookup_lt h r _ hr
  have hal := mem_lookup_lt h arr _ ha
  have hr1 : Mem.lookup (Mem.store h arr (.slots (sl.set num.toNat v))) r =
      some (.record size num (.addr arr)) := by
    rw [mem_lookup_store _ _ _ _ hal, if_neg hra, hr]
  refine ⟨Mem.store (Mem.store h arr (.slots (sl.set num.toNat v))) r
      (.record size (num + 1) (.addr arr)), ?_, ?_, ?_, ?_, ?_, rfl⟩
  · simp only [Mem.append, mem_read_record h r size num _ hr, Mem.write_slot, ha, h0, hlt,
      and_self, if_true, mem_read_record _ r size num _ hr1,
      mem_set_num_words _ r size num _ _ hr1]
  · rw [mem_lookup_store _ _ _ _ (by rw [mem_length_store]; exact hrl), if_pos rfl]
  · rw [mem_lookup_store _ _ _ _ (by rw [mem_length_store]; exact hrl),
      if_neg (fun e => hra e.symm), mem_lookup_store _ _ _ _ hal, if_pos rfl]
  · intro x hxr hxa
    rw [mem_lookup_store _ _ _ _ (by rw [mem_length_store]; exact hrl), if_neg hxr,
      mem_lookup_store _ _ _ _ hal, if_neg hxa]
  · rw [mem_length_store, mem_length_store]

theorem mem_grow (mv : Bool) (h : Mem.heap) (r arr : Nat) (size num : Int)
    (sl : List Mem.ptr)
    (hr : Mem.lookup h r = some (.record size num (.addr arr)))
    (ha : Mem.lookup h arr = some (.slots sl)) :
    ∃ h1 arr2, Mem.grow mv h (.addr r) = .ok h1 ∧
      Mem.lookup h1 r = some (.record (size * 2) num (.addr arr2)) ∧
      Mem.lookup h1 arr2 = some (.slots (sl.take (size * 2).toNat ++
        List.replicate ((size * 2).toNat - sl.length) .indeterminate)) ∧
      (∀ x, x ≠ r → x ≠ arr → x ≠ arr2 → Mem.lookup h1 x = Mem.lookup h x) ∧
      (arr2 = arr ∨ (arr2 = h.cells.length ∧ Mem.lookup h1 arr = none)) ∧
      h.cells.length ≤ h1.cells.length ∧ h1.frees = h.frees := by
  have hra : r ≠ arr := by
    intro e; rw [e, ha] at hr; simp at hr
  have hrl := mem_lookup_lt h r _ hr
  have hal := mem_lookup_lt h arr _ ha
  have hr1 : Mem.lookup (Mem.store h r (.record (size * 2) num (.addr arr))) r =
      some (.record (size * 2) num (.addr arr)) := by
    rw [mem_lookup_store _ _ _ _ hrl, if_pos rfl]
  have ha1 : Mem.lookup (Mem.store h r (.record (size * 2) num (.addr arr))) arr =
      some (.slots sl) := by
    rw [mem_lookup_store _ _ _ _ hrl, if_neg (fun e => hra e.symm), ha]
  cases mv with
  | false =>
    have hr2 : Mem.lookup (Mem.store (Mem.store h r (.record (size * 2) num (.addr arr))) arr
        (.slots (sl.take (size * 2).toNat ++
          List.replicate ((size * 2).toNat - sl.length) .indeterminate))) r =
        some (.record (size * 2) num (.addr arr)) := by
      rw [mem_lookup_store _ _ _ _ (by rw [mem_length_store]; exact hal), if_neg hra, hr1]
    refine ⟨Mem.store (Mem.store (Mem.store h r (.record (size * 2) num (.addr arr))) arr
        (.slots (sl.take (size * 2).toNat ++
          List.replicate ((size * 2).toNat - sl.length) .indeterminate))) r
        (.record (size * 2) num (.addr arr)), arr, ?_, ?_, ?_, ?_, Or.inl rfl, ?_, ?_⟩
    · simp only [Mem.grow, mem_read_record h r size num _ hr,
        mem_set_sentence_size h r size num _ _ hr, mem_read_record _ r _ num _ hr1,
        Mem.realloc, ha1, Bool.false_eq_true, if_false,
        mem_set_sentence _ r _ num _ _ hr2]
    · rw [mem_lookup_store _ _ _ _ (by rw [mem_length_store, mem_length_store]; exact hrl),
        if_pos rfl]
    · rw [mem_lookup_store _ _ _ _ (by rw [mem_length_store, mem_length_store]; exact hrl),
        if_neg (fun e => hra e.symm),
        mem_lookup_store _ _ _ _ (by rw [mem_length_store]; exact hal), if_pos rfl]
    · intro x hxr hxa _
      rw [mem_lookup_store _ _ _ _ (by rw [mem_length_store, mem_length_store]; exact hrl),
        if_neg hxr, mem_lookup_store _ _ _ _ (by rw [mem_length_store]; exact hal),
        if_neg hxa, mem_lookup_store _ _ _ _ hrl, if_neg hxr]
    · rw [mem_length_store, mem_length_store, mem_length_store]
    · rfl
  | true =>
    have hlen1 : (Mem.store h r (.record (size * 2) num (.addr arr))).cells.length =
        h.cells.length := mem_length_store _ _ _
    have hr2 : Mem.lookup (Mem.release (Mem.alloc
        (Mem.store h r (.record (size * 2) num (.addr arr)))
        (.slots (sl.take (size * 2).toNat ++
          List.replicate ((size * 2).toNat - sl.length) .indeterminate))).2 arr) r =
        some (.record (size * 2) num (.addr arr)) := by
      rw [mem_lookup_release, if_neg hra, mem_lookup_alloc, hlen1,
        if_neg (by omega), hr1]
    refine ⟨Mem.store (Mem.release (Mem.alloc
        (Mem.store h r (.record (size * 2) num (.addr arr)))
        (.slots (sl.take (size * 2).toNat ++
          List.replicate ((size * 2).toNat - sl.length) .indeterminate))).2 arr) r
        (.record (size * 2) num (.addr h.cells.length)), h.cells.length,
        ?_, ?_, ?_, ?_, Or.inr ⟨rfl, ?_⟩, ?_, ?_⟩
    · simp only [Mem.grow, mem_read_record h r size num _ hr,
        mem_set_sentence_size h r size num _ _ hr, mem_read_record _ r _ num _ hr1,
        Mem.realloc, ha1, if_true, mem_alloc_fst, hlen1,
        mem_set_sentence _ r _ num _ _ hr2]
    · rw [mem_lookup_store _ _ _ _ (by
        rw [mem_length_release, mem_length_alloc, hlen1]; omega), if_pos rfl]
    · rw [mem_lookup_store _ _ _ _ (by
        rw [mem_length_release, mem_length_alloc, hlen1]; omega),
        if_neg (by omega), mem_lookup_release, if_neg (by omega), mem_lookup_alloc, hlen1,
        if_pos rfl]
    · intro x hxr hxa hxn
      rw [mem_lookup_store _ _ _ _ (by
        rw [mem_length_release, mem_length_alloc, hlen1]; omega),
        if_neg hxr, mem_lookup_release, if_neg hxa, mem_lookup_alloc, hlen1, if_neg hxn,
        mem_lookup_store _ _ _ _ hrl, if_neg hxr]
    · rw [mem_lookup_store _ _ _ _ (by
        rw [mem_length_release, mem_length_alloc, hlen1]; omega),
        if_neg (fun e => hra e.symm), mem_lookup_release, if_pos rfl]
    · rw [mem_length_store, mem_length_release, mem_length_alloc, hlen1]
      omega
    · rfl

/-! ## Ownership through the loop -/

theorem mem_strings_live (h : Mem.heap) (ws : List Nat) (words : List (List Char))
    (hs : List.Forall₂ (fun a w => Mem.lookup h a = some (.chars (w ++ [NUL]))) ws words) :
    ∀ a ∈ ws, ∃ w, Mem.lookup h a = some (.chars (w ++ [NUL])) := by
  induction hs with
  | nil => intro a ha; simp at ha
  | cons hab _ ih =>
    intro a ha
    rcases List.mem_cons.mp ha with rfl | ha
    · exact ⟨_, hab⟩
    · exact ih a ha

theorem mem_strings_frame (h h2 : Mem.heap) (ws : List Nat) (words : List (List Char))
    (hs : List.Forall₂ (fun a w => Mem.lookup h a = some (.chars (w ++ [NUL]))) ws words)
    (hf : ∀ a ∈ ws, Mem.lookup h2 a = Mem.lookup h a) :
    List.Forall₂ (fun a w => Mem.lookup h2 a = some (.chars (w ++ [NUL]))) ws words := by
  induction hs with
  | nil => exact List.Forall₂.nil
  | cons hab _ ih =>
    refine List.Forall₂.cons ?_ (ih (fun a ha => hf a (List.mem_cons_of_mem _ ha)))
    rw [hf _ (List.mem_cons_self _ _)]
    exact hab

theorem mem_owns_store_word (h0 h : Mem.heap) (r arr : Nat) (size num : Int)
    (ws : List Nat) (words : List (List Char)) (rest : List Mem.ptr)
    (ho : Mem.owns h0 h r arr size num ws words rest [])
    (q : List Char) (c : Char) (t : List Char) (hq : q = c :: t)
    (hc : is_word_char c = true) :
    ∃ h1, Mem.store_word_on_heap h (some q) ((q.takeWhile is_word_char).length : Int) =
        .ok (.addr h.cells.length, h1) ∧
      Mem.lookup h1 h.cells.length = some (.chars (q.takeWhile is_word_char ++ [NUL])) ∧
      h1.cells.length = h.cells.length + 1 ∧
      Mem.owns h0 h1 r arr size num ws words rest [h.cells.length] := by
  obtain ⟨h1, e1, l1, f1, n1, fr1⟩ := mem_store_word h q c t hq hc
  have hrl := mem_lookup_lt h r _ ho.record_block
  have hal := mem_lookup_lt h arr _ ho.array_block
  have hwl : ∀ a ∈ ws, a < h.cells.length := by
    intro a ha
    obtain ⟨w, hw⟩ := mem_strings_live h ws words ho.strings a ha
    exact mem_lookup_lt h a _ hw
  refine ⟨h1, e1, l1, n1, ?_⟩
  exact
    { record_block := by rw [f1 r (by omega)]; exact ho.record_block
      array_block := by rw [f1 arr (by omega)]; exact ho.array_block
      unused := ho.unused
      capacity := ho.capacity
      count := ho.count
      positive := ho.positive
      strings := mem_strings_frame h h1 ws words ho.strings
        (fun a ha => f1 a (by have := hwl a ha; omega))
      distinct := ho.distinct
      no_other := by
        intro a hbase hlive
        by_cases ha : a = h.cells.length
        · exact Or.inr (Or.inr (Or.inr (by simp [ha])))
        · rw [f1 a ha] at hlive
          rcases ho.no_other a hbase hlive with h' | h' | h' | h'
          · exact Or.inl h'
          · exact Or.inr (Or.inl h')
          · exact Or.inr (Or.inr (Or.inl h'))
          · simp at h'
      fresh := ho.fresh
      old := by
        intro a ha
        rw [f1 a (by have := ho.fresh.1; omega)]
        exact ho.old a ha
      frees_eq := by rw [fr1]; exact ho.frees_eq }

theorem set_append_length (l1 l2 : List Mem.ptr) (x y : Mem.ptr) :
    (l1 ++ x :: l2).set l1.length y = l1 ++ y :: l2 := by
  induction l1 with
  | nil => rfl
  | cons a t ih => simp [ih]

theorem mem_owns_grow (mv : Bool) (h0 h : Mem.heap) (r arr : Nat) (size num : Int)
    (ws : List Nat) (words : List (List Char)) (rest : List Mem.ptr) (extra : List Nat)
    (ho : Mem.owns h0 h r arr size num ws words rest extra)
    (hfull : num ≥ size)
    (hextra : ∀ a ∈ extra, a ≠ r ∧ a ≠ arr ∧ a < h.cells.length) :
    ∃ h2 arr2, Mem.grow mv h (.addr r) = .ok h2 ∧
      Mem.owns h0 h2 r arr2 (size * 2) num ws words
        (List.replicate size.toNat .indeterminate) extra ∧
      (∀ a ∈ extra, Mem.lookup h2 a = Mem.lookup h a) ∧
      h.cells.length ≤ h2.cells.length := by
  have hcap := ho.capacity
  have hcnt := ho.count
  have hpos := ho.positive
  have hrest : rest = [] := List.length_eq_zero.mp (by omega)
  subst hrest
  obtain ⟨h2, arr2, e2, r2, a2, f2, m2, n2, fr2⟩ :=
    mem_grow mv h r arr size num _ ho.record_block ho.array_block
  have hrl := mem_lookup_lt h r _ ho.record_block
  have hal := mem_lookup_lt h arr _ ho.array_block
  have hra : r ≠ arr := by
    intro e
    have h1 := ho.record_block
    rw [e, ho.array_block] at h1
    simp at h1
  have hwl : ∀ a ∈ ws, a < h.cells.length ∧ a ≠ r ∧ a ≠ arr := by
    intro a ha
    obtain ⟨w, hw⟩ := mem_strings_live h ws words ho.strings a ha
    refine ⟨mem_lookup_lt h a _ hw, ?_, ?_⟩
    · intro e; rw [e, ho.record_block] at hw; simp at hw
    · intro e; rw [e, ho.array_block] at hw; simp at hw
  have harr2 : arr2 = arr ∨ arr2 = h.cells.length := by
    rcases m2 with h' | h'
    · exact Or.inl h'
    · exact Or.inr h'.1
  have hr2 : r ≠ arr2 := by
    rcases harr2 with h' | h' <;> omega
  have hgrown : List.take (size * 2).toNat (List.map Mem.ptr.addr ws ++ []) ++
      List.replicate ((size * 2).toNat - (List.map Mem.ptr.addr ws ++ []).length)
        Mem.ptr.indeterminate =
      List.map Mem.ptr.addr ws ++ List.replicate size.toNat Mem.ptr.indeterminate := by
    have hl : (List.map Mem.ptr.addr ws ++ []).length = size.toNat := by
      simp at hcap ⊢; exact hcap
    rw [List.take_of_length_le (by rw [hl]; omega), hl, List.append_nil]
    congr 2
    omega
  rw [hgrown] at a2
  refine ⟨h2, arr2, e2, ?_, ?_, n2⟩
  · exact
    { record_block := r2
      array_block := a2
      unused := fun p hp => Or.inr (List.eq_of_mem_replicate hp)
      capacity := by
        simp only [List.length_replicate]
        simp only [List.length_nil, Nat.add_zero] at hcap
        omega
      count := hcnt
      positive := by omega
      strings := mem_strings_frame h h2 ws words ho.strings (fun a ha => by
        obtain ⟨b1, b2, b3⟩ := hwl a ha
        exact f2 a b2 b3 (by rcases harr2 with h' | h' <;> omega))
      distinct := ho.distinct
      no_other := by
        intro a hbase hlive
        by_cases har : a = r
        · exact Or.inl har
        · by_cases ha2 : a = arr2
          · exact Or.inr (Or.inl ha2)
          · by_cases haa : a = arr
            · rcases m2 with h' | h'
              · exact absurd (haa.trans h'.symm) ha2
              · rw [haa, h'.2] at hlive
                exact absurd rfl hlive
            · rw [f2 a har haa ha2] at hlive
              rcases ho.no_other a hbase hlive with h' | h' | h' | h'
              · exact absurd h' har
              · exact absurd h' haa
              · exact Or.inr (Or.inr (Or.inl h'))
              · exact Or.inr (Or.inr (Or.inr h'))
      fresh := by
        refine ⟨ho.fresh.1, ?_, ho.fresh.2.2⟩
        have := ho.fresh.2.1
        rcases harr2 with h' | h' <;> omega
      old := by
        intro a ha
        have b1 := ho.fresh.1
        have b2 := ho.fresh.2.1
        rw [f2 a (by omega) (by omega) (by rcases harr2 with h' | h' <;> omega)]
        exact ho.old a ha
      frees_eq := by rw [fr2]; exact ho.frees_eq }
  · intro a ha
    obtain ⟨b1, b2, b3⟩ := hextra a ha
    exact f2 a b1 b2 (by rcases harr2 with h' | h' <;> omega)

theorem mem_owns_append (h0 h : Mem.heap) (r arr : Nat) (size num : Int)
    (ws : List Nat) (words : List (List Char)) (p0 : Mem.ptr) (rest : List Mem.ptr)
    (new : Nat) (w : List Char)
    (ho : Mem.owns h0 h r arr size num ws words (p0 :: rest) [new])
    (hnew : Mem.lookup h new = some (.chars (w ++ [NUL])))
    (hnws : new ∉ ws) (hbase : h0.cells.length ≤ new) :
    ∃ h3, Mem.append h (.addr r) (.addr new) = .ok h3 ∧
      Mem.owns h0 h3 r arr size (num + 1) (ws ++ [new]) (words ++ [w]) rest [] ∧
      h3.cells.length = h.cells.length := by
  have hcap := ho.capacity
  have hcnt := ho.count
  have hnum : num.toNat = (ws.map Mem.ptr.addr).length := by
    simp only [List.length_map]; omega
  obtain ⟨h3, e3, r3, a3, f3, n3, fr3⟩ :=
    mem_append h r arr size num _ (.addr new) ho.record_block ho.array_block (by omega)
      (by simp only [List.length_append, List.length_map, List.length_cons]; omega)
  rw [hnum, set_append_length] at a3
  have hnr : new ≠ r := by
    intro e; rw [e, ho.record_block] at hnew; simp at hnew
  have hna : new ≠ arr := by
    intro e; rw [e, ho.array_block] at hnew; simp at hnew
  have hwl : ∀ a ∈ ws, a ≠ r ∧ a ≠ arr := by
    intro a ha
    obtain ⟨w, hw⟩ := mem_strings_live h ws words ho.strings a ha
    refine ⟨?_, ?_⟩
    · intro e; rw [e, ho.record_block] at hw; simp at hw
    · intro e; rw [e, ho.array_block] at hw; simp at hw
  refine ⟨h3, e3, ?_, n3⟩
  exact
    { record_block := r3
      array_block := by
        rw [a3]
        simp
      unused := fun p hp => ho.unused p (List.mem_cons_of_mem _ hp)
      capacity := by
        simp only [List.length_append, List.length_cons, List.length_nil] at hcap ⊢
        omega
      count := by
        simp only [List.length_append, List.length_cons, List.length_nil]
        push_cast
        omega
      positive := ho.positive
      strings := by
        refine List.rel_append
          (mem_strings_frame h h3 ws words ho.strings (fun a ha => by
            obtain ⟨b1, b2⟩ := hwl a ha
            exact f3 a b1 b2)) ?_
        refine List.Forall₂.cons ?_ List.Forall₂.nil
        rw [f3 new hnr hna]
        exact hnew
      distinct := by
        rw [List.nodup_append]
        refine ⟨ho.distinct, List.nodup_singleton _, ?_⟩
        intro a ha hb
        rw [List.mem_singleton] at hb
        exact hnws (hb ▸ ha)
      no_other := by
        intro a hb hlive
        by_cases har : a = r
        · exact Or.inl har
        · by_cases haa : a = arr
          · exact Or.inr (Or.inl haa)
          · rw [f3 a har haa] at hlive
            rcases ho.no_other a hb hlive with h' | h' | h' | h'
            · exact absurd h' har
            · exact absurd h' haa
            · exact Or.inr (Or.inr (Or.inl (List.mem_append_left _ h')))
            · exact Or.inr (Or.inr (Or.inl (List.mem_append_right _ h')))
      fresh := by
        refine ⟨ho.fresh.1, ho.fresh.2.1, ?_⟩
        intro a ha
        rcases List.mem_append.mp ha with h' | h'
        · exact ho.fresh.2.2 a h'
        · rw [List.mem_singleton] at h'
          omega
      old := by
        intro a ha
        have b1 := ho.fresh.1
        have b2 := ho.fresh.2.1
        rw [f3 a (by omega) (by omega)]
        exact ho.old a ha
      frees_eq := by rw [fr3]; exact ho.frees_eq }

theorem mem_loop_body_break (moves : Nat → Bool) (h : Mem.heap) (p : List Char)
    (sd : Mem.ptr) (f : Int)
    (hq : deref (skip_spaces (if f = 0 then skip_word p else p)) = NUL) :
    Mem.loop_body moves h (some p) sd f = .ok none := by
  simp only [Mem.loop_body, get_next_word_and_size_eq, hq, if_true]

theorem mem_loop_body_word (moves : Nat → Bool) (h0 h : Mem.heap) (r arr : Nat)
    (d : sentence_t) (ws : List Nat) (words : List (List Char)) (rest : List Mem.ptr)
    (p : List Char) (f : Int)
    (ho : Mem.owns h0 h r arr d.sentence_size d.num_words ws words rest [])
    (hq : deref (skip_spaces (if f = 0 then skip_word p else p)) ≠ NUL) :
    ∃ h3 arr3 rest3,
      Mem.loop_body moves h (some p) (.addr r) f =
        .ok (some (h3, some (skip_spaces (if f = 0 then skip_word p else p)))) ∧
      Mem.owns h0 h3 r arr3
        (push_word d ((skip_spaces (if f = 0 then skip_word p else p)).takeWhile
          is_word_char)).sentence_size
        (push_word d ((skip_spaces (if f = 0 then skip_word p else p)).takeWhile
          is_word_char)).num_words
        (ws ++ [h.cells.length])
        (words ++ [(skip_spaces (if f = 0 then skip_word p else p)).takeWhile is_word_char])
        rest3 [] := by
  obtain ⟨c, t, hcr, hc⟩ := skip_spaces_word_start _ hq
  simp only [Mem.loop_body, get_next_word_and_size_eq, hq, if_false]
  rw [sentence_size_push_word, num_words_push_word]
  generalize skip_spaces (if f = 0 then skip_word p else p) = q at hq hcr
  obtain ⟨h1, e1, l1, n1, o1⟩ := mem_owns_store_word h0 h r arr _ _ ws words rest ho q c t hcr hc
  have hrl := mem_lookup_lt h r _ ho.record_block
  have hal := mem_lookup_lt h arr _ ho.array_block
  have hwl : ∀ a ∈ ws, a < h.cells.length := by
    intro a ha
    obtain ⟨w, hw⟩ := mem_strings_live h ws words ho.strings a ha
    exact mem_lookup_lt h a _ hw
  have hnws : h.cells.length ∉ ws := fun hm => Nat.lt_irrefl _ (hwl _ hm)
  have hbase : h0.cells.length ≤ h.cells.length := by
    have := ho.fresh.1; omega
  simp only [e1, mem_read_record h1 r _ _ _ o1.record_block]
  by_cases hfull : d.num_words ≥ d.sentence_size
  · obtain ⟨h2, arr2, e2, o2, f2, n2⟩ :=
      mem_owns_grow (moves h1.cells.length) h0 h1 r arr _ _ ws words rest [h.cells.length]
        o1 hfull (by
          intro a ha
          rw [List.mem_singleton] at ha
          subst ha
          exact ⟨by omega, by omega, by omega⟩)
    have hpos := ho.positive
    have hrep : List.replicate d.sentence_size.toNat Mem.ptr.indeterminate =
        Mem.ptr.indeterminate ::
          List.replicate (d.sentence_size.toNat - 1) Mem.ptr.indeterminate := by
      have : d.sentence_size.toNat = (d.sentence_size.toNat - 1) + 1 := by omega
      conv_lhs => rw [this, List.replicate_succ]
    rw [hrep] at o2
    have hnew2 : Mem.lookup h2 h.cells.length =
        some (.chars (q.takeWhile is_word_char ++ [NUL])) := by
      rw [f2 _ (by simp), l1]
    obtain ⟨h3, e3, o3, _⟩ := mem_owns_append h0 h2 r arr2 _ _ ws words _ _ h.cells.length
      (q.takeWhile is_word_char) o2 hnew2 hnws hbase
    refine ⟨h3, arr2, List.replicate (d.sentence_size.toNat - 1) .indeterminate, ?_, ?_⟩
    · simp only [hfull, if_true, e2, e3]
    · rw [if_pos hfull]
      exact o3
  · have hcap := ho.capacity
    have hcnt := ho.count
    have hne : rest ≠ [] := by
      intro e
      rw [e] at hcap
      simp only [List.length_nil, Nat.add_zero] at hcap
      omega
    obtain ⟨p0, rest0, hrest⟩ := List.exists_cons_of_ne_nil hne
    subst hrest
    obtain ⟨h3, e3, o3, _⟩ := mem_owns_append h0 h1 r arr _ _ ws words _ _ h.cells.length
      (q.takeWhile is_word_char) o1 l1 hnws hbase
    refine ⟨h3, arr, rest0, ?_, ?_⟩
    · simp only [hfull, if_false, e3]
    · rw [if_neg hfull]
      exact o3

theorem mem_loop_rest (moves : Nat → Bool) (h0 : Mem.heap) (r : Nat) (fuel : Nat)
    (p : List Char) (d : sentence_t) (h : Mem.heap) (arr : Nat) (ws : List Nat)
    (words : List (List Char)) (rest : List Mem.ptr)
    (ho : Mem.owns h0 h r arr d.sentence_size d.num_words ws words rest [])
    (hf : (c_words (skip_word p)).length + 1 ≤ fuel) :
    ∃ h2 arr2 ws2 rest2, Mem.loop moves (.addr r) fuel h (some p) 0 = .ok h2 ∧
      Mem.owns h0 h2 r arr2 (push_all d (c_words (skip_word p))).sentence_size
        (push_all d (c_words (skip_word p))).num_words ws2
        (words ++ c_words (skip_word p)) rest2 [] := by
  induction fuel generalizing p d h arr ws words rest with
  | zero => omega
  | succ n ih =>
    unfold Mem.loop
    by_cases hc : Mem.loop_cond (some p) = true
    · rw [if_pos hc]
      by_cases hq : deref (skip_spaces (if (0 : Int) = 0 then skip_word p else p)) = NUL
      · rw [mem_loop_body_break moves h p _ 0 hq]
        rw [if_pos rfl] at hq
        have := c_words_of_deref_NUL _ hq
        rw [c_words_skip_spaces] at this
        rw [this]
        exact ⟨h, arr, ws, rest, rfl, by simpa [push_all] using ho⟩
      · obtain ⟨h3, arr3, rest3, e3, o3⟩ :=
          mem_loop_body_word moves h0 h r arr d ws words rest p 0 ho hq
        rw [e3]
        obtain ⟨c, t, hcr, hcw⟩ := skip_spaces_word_start _ hq
        rw [if_pos rfl] at hcr o3
        have hw : c_words (skip_word p) =
            (c :: t).takeWhile is_word_char :: c_words (skip_word (c :: t)) := by
          rw [← c_words_skip_spaces, hcr]
          exact c_words_word_start c t hcw
        rw [hcr] at o3
        rw [hw] at hf ⊢
        simp only [List.length_cons] at hf
        obtain ⟨h4, arr4, ws4, rest4, e4, o4⟩ := ih (c :: t) (push_word d _) h3 arr3 _ _ rest3 o3
          (by omega)
        refine ⟨h4, arr4, ws4, rest4, ?_, ?_⟩
        · show Mem.loop moves (.addr r) n h3 _ 0 = _
          rw [if_pos rfl, hcr]
          exact e4
        · simpa [push_all] using o4
    · rw [if_neg hc]
      have hp : deref p = NUL := by
        simpa [Mem.loop_cond] using hc
      rw [skip_word_of_deref_NUL p hp, c_words_of_deref_NUL p hp]
      exact ⟨h, arr, ws, rest, rfl, by simpa [push_all] using ho⟩

theorem mem_loop_first (moves : Nat → Bool) (h0 : Mem.heap) (r : Nat) (fuel : Nat)
    (s : List Char) (d : sentence_t) (h : Mem.heap) (arr : Nat) (ws : List Nat)
    (words : List (List Char)) (rest : List Mem.ptr)
    (ho : Mem.owns h0 h r arr d.sentence_size d.num_words ws words rest [])
    (hf : (c_words s).length + 1 ≤ fuel) :
    ∃ h2 arr2 ws2 rest2, Mem.loop moves (.addr r) fuel h (some s) 1 = .ok h2 ∧
      Mem.owns h0 h2 r arr2 (push_all d (c_words s)).sentence_size
        (push_all d (c_words s)).num_words ws2 (words ++ c_words s) rest2 [] := by
  cases fuel with
  | zero => omega
  | succ n =>
    unfold Mem.loop
    by_cases hc : Mem.loop_cond (some s) = true
    · rw [if_pos hc]
      by_cases hq : deref (skip_spaces (if (1 : Int) = 0 then skip_word s else s)) = NUL
      · rw [mem_loop_body_break moves h s _ 1 hq]
        rw [if_neg (by decide)] at hq
        have := c_words_of_deref_NUL _ hq
        rw [c_words_skip_spaces] at this
        rw [this]
        exact ⟨h, arr, ws, rest, rfl, by simpa [push_all] using ho⟩
      · obtain ⟨h3, arr3, rest3, e3, o3⟩ :=
          mem_loop_body_word moves h0 h r arr d ws words rest s 1 ho hq
        rw [e3]
        obtain ⟨c, t, hcr, hcw⟩ := skip_spaces_word_start _ hq
        rw [if_neg (by decide)] at hcr o3
        have hw : c_words s =
            (c :: t).takeWhile is_word_char :: c_words (skip_word (c :: t)) := by
          rw [← c_words_skip_spaces, hcr]
          exact c_words_word_start c t hcw
        rw [hcr] at o3
        rw [hw] at hf ⊢
        simp only [List.length_cons] at hf
        obtain ⟨h4, arr4, ws4, rest4, e4, o4⟩ :=
          mem_loop_rest moves h0 r n (c :: t) (push_word d _) h3 arr3 _ _ rest3 o3 (by omega)
        refine ⟨h4, arr4, ws4, rest4, ?_, ?_⟩
        · show Mem.loop moves (.addr r) n h3 _ 0 = _
          rw [if_neg (by decide), hcr]
          exact e4
        · simpa [push_all] using o4
    · rw [if_neg hc]
      have hp : deref s = NUL := by
        simpa [Mem.loop_cond] using hc
      rw [c_words_of_deref_NUL s hp]
      exact ⟨h, arr, ws, rest, rfl, by simpa [push_all] using ho⟩

theorem mem_create_sentence_struct (h0 : Mem.heap) (n : Int) :
    ∃ h1, Mem.create_sentence_struct h0 n = .ok (.addr h0.cells.length, h1) ∧
      Mem.owns h0 h1 h0.cells.length (h0.cells.length + 1)
        (create_sentence_struct n).sentence_size (create_sentence_struct n).num_words
        [] [] (List.replicate (create_sentence_struct n).sentence_size.toNat .null) [] := by
  have hsz : (create_sentence_struct n).sentence_size = (if n ≤ 0 then 5 else n) := rfl
  have hnum : (create_sentence_struct n).num_words = 0 := rfl
  have hm : 1 ≤ (if n ≤ 0 then (5 : Int) else n) := by split <;> omega
  rw [hsz, hnum]
  unfold Mem.create_sentence_struct
  generalize (if n ≤ 0 then (5 : Int) else n) = m at hm ⊢
  have hlenB : (Mem.alloc (Mem.alloc h0 (.record 0 0 .null)).2
      (.slots (List.replicate m.toNat .null))).2.cells.length = h0.cells.length + 2 := by
    rw [mem_length_alloc, mem_length_alloc]
  have l1 : Mem.lookup (Mem.alloc (Mem.alloc h0 (.record 0 0 .null)).2
      (.slots (List.replicate m.toNat .null))).2 h0.cells.length =
      some (.record 0 0 .null) := by
    rw [mem_lookup_alloc, mem_length_alloc, if_neg (by omega), mem_lookup_alloc, if_pos rfl]
  have l2 : Mem.lookup (Mem.store (Mem.alloc (Mem.alloc h0 (.record 0 0 .null)).2
      (.slots (List.replicate m.toNat .null))).2 h0.cells.length
      (.record 0 0 (.addr (h0.cells.length + 1)))) h0.cells.length =
      some (.record 0 0 (.addr (h0.cells.length + 1))) := by
    rw [mem_lookup_store _ _ _ _ (by rw [hlenB]; omega), if_pos rfl]
  have l3 : Mem.lookup (Mem.store (Mem.store (Mem.alloc (Mem.alloc h0 (.record 0 0 .null)).2
      (.slots (List.replicate m.toNat .null))).2 h0.cells.length
      (.record 0 0 (.addr (h0.cells.length + 1)))) h0.cells.length
      (.record 0 0 (.addr (h0.cells.length + 1)))) h0.cells.length =
      some (.record 0 0 (.addr (h0.cells.length + 1))) := by
    rw [mem_lookup_store _ _ _ _ (by rw [mem_length_store, hlenB]; omega), if_pos rfl]
  refine ⟨Mem.store (Mem.store (Mem.store (Mem.alloc (Mem.alloc h0 (.record 0 0 .null)).2
      (.slots (List.replicate m.toNat .null))).2 h0.cells.length
      (.record 0 0 (.addr (h0.cells.length + 1)))) h0.cells.length
      (.record 0 0 (.addr (h0.cells.length + 1)))) h0.cells.length
      (.record m 0 (.addr (h0.cells.length + 1))), ?_, ?_⟩
  · simp only [Mem.create_sentence, mem_alloc_fst, mem_length_alloc,
      mem_set_sentence _ _ _ _ _ _ l1, mem_set_num_words _ _ _ _ _ _ l2,
      mem_set_sentence_size _ _ _ _ _ _ l3]
  · have hlook : ∀ x, Mem.lookup (Mem.store (Mem.store (Mem.store
        (Mem.alloc (Mem.alloc h0 (.record 0 0 .null)).2
        (.slots (List.replicate m.toNat .null))).2 h0.cells.length
        (.record 0 0 (.addr (h0.cells.length + 1)))) h0.cells.length
        (.record 0 0 (.addr (h0.cells.length + 1)))) h0.cells.length
        (.record m 0 (.addr (h0.cells.length + 1)))) x =
        if x = h0.cells.length then some (.record m 0 (.addr (h0.cells.length + 1)))
        else if x = h0.cells.length + 1 then some (.slots (List.replicate m.toNat .null))
        else Mem.lookup h0 x := by
      intro x
      rw [mem_lookup_store _ _ _ _ (by rw [mem_length_store, mem_length_store, hlenB]; omega)]
      by_cases hx : x = h0.cells.length
      · rw [if_pos hx, if_pos hx]
      · rw [if_neg hx, if_neg hx,
          mem_lookup_store _ _ _ _ (by rw [mem_length_store, hlenB]; omega), if_neg hx,
          mem_lookup_store _ _ _ _ (by rw [hlenB]; omega), if_neg hx,
          mem_lookup_alloc, mem_length_alloc]
        by_cases hx1 : x = h0.cells.length + 1
        · rw [if_pos hx1, if_pos hx1]
        · rw [if_neg hx1, if_neg hx1, mem_lookup_alloc, if_neg hx]
    exact
      { record_block := by rw [hlook, if_pos rfl]
        array_block := by
          rw [hlook, if_neg (by omega), if_pos rfl]
          rfl
        unused := fun p hp => Or.inl (List.eq_of_mem_replicate hp)
        capacity := by simp
        count := rfl
        positive := hm
        strings := List.Forall₂.nil
        distinct := List.nodup_nil
        no_other := by
          intro a hb hlive
          rw [hlook] at hlive
          by_cases hx : a = h0.cells.length
          · exact Or.inl hx
          · by_cases hx1 : a = h0.cells.length + 1
            · exact Or.inr (Or.inl hx1)
            · rw [if_neg hx, if_neg hx1] at hlive
              have : Mem.lookup h0 a = none := by
                unfold Mem.lookup
                exact List.getD_eq_default _ _ (by omega)
              exact absurd this hlive
        fresh := ⟨le_refl _, by omega, fun a ha => by simp at ha⟩
        old := by
          intro a ha
          rw [hlook, if_neg (by omega), if_neg (by omega)]
        frees_eq := rfl }

theorem mem_allocate (moves : Nat → Bool) (h0 : Mem.heap) (s : List Char) :
    ∃ h1 arr ws rest,
      Mem.allocate_sentence_dynamically moves h0 (some s) =
        .ok (.addr h0.cells.length, h1) ∧
      Mem.owns h0 h1 h0.cells.length arr
        (push_all (create_sentence_struct 5) (c_words s)).sentence_size
        (push_all (create_sentence_struct 5) (c_words s)).num_words
        ws (c_words s) rest [] := by
  obtain ⟨hA, eA, oA⟩ := mem_create_sentence_struct h0 5
  obtain ⟨h1, arr, ws, rest, e1, o1⟩ :=
    mem_loop_first moves h0 h0.cells.length (s.length + 2) s (create_sentence_struct 5) hA _ _ _ _
      oA (by have := c_words_length_le s; omega)
  refine ⟨h1, arr, ws, rest, ?_, by simpa using o1⟩
  simp only [Mem.allocate_sentence_dynamically, eA, e1]

/-! ## Destruction -/

theorem mem_free_live (h : Mem.heap) (a : Nat) (b : Mem.block)
    (hl : Mem.lookup h a = some b) :
    ∃ h1, Mem.free h (.addr a) = .ok h1 ∧ h1.frees = h.frees ++ [a] ∧
      (∀ x, Mem.lookup h1 x = if x = a then none else Mem.lookup h x) ∧
      h1.cells.length = h.cells.length := by
  refine ⟨⟨h.cells.set a none, h.frees ++ [a]⟩, ?_, rfl, ?_, ?_⟩
  · simp only [Mem.free, hl]
  · intro x
    exact mem_lookup_release h a x
  · simp

theorem getElem?_slots (done todo : List Nat) (a : Nat) (rest : List Mem.ptr) :
    (((done ++ a :: todo).map Mem.ptr.addr) ++ rest).get? done.length = some (.addr a) := by
  induction done with
  | nil => rfl
  | cons x t ih => simpa using ih

theorem mem_free_words (r arr : Nat) (size num : Int) (rest : List Mem.ptr)
    (ws : List Nat) (todo : List Nat) :
    ∀ (done : List Nat) (h : Mem.heap) (k : Nat), ws = done ++ todo →
      todo.length + 1 ≤ k → (ws.length : Int) = num →
      Mem.lookup h r = some (.record size num (.addr arr)) →
      Mem.lookup h arr = some (.slots (ws.map .addr ++ rest)) →
      (∀ a ∈ todo, ∃ b, Mem.lookup h a = some (.chars b)) → todo.Nodup →
      ∃ h1, Mem.free_words (.addr r) k h (done.length : Int) = .ok h1 ∧
        h1.frees = h.frees ++ todo ∧
        (∀ x, Mem.lookup h1 x = if x ∈ todo then none else Mem.lookup h x) ∧
        h1.cells.length = h.cells.length := by
  induction todo with
  | nil =>
    intro done h k hws hk hnum hr ha _ _
    cases k with
    | zero => omega
    | succ k =>
      have hi : ¬ ((done.length : Int) < num) := by
        rw [hws] at hnum
        simp only [List.append_nil] at hnum
        omega
      refine ⟨h, ?_, by simp, fun x => by simp, rfl⟩
      simp only [Mem.free_words, mem_read_record h r size num _ hr, hi, if_false]
  | cons a t ih =>
    intro done h k hws hk hnum hr ha hlive hnd
    cases k with
    | zero => omega
    | succ k =>
      have hi : (done.length : Int) < num := by
        rw [hws] at hnum
        simp only [List.length_append, List.length_cons] at hnum
        push_cast at hnum
        omega
      obtain ⟨b, hb⟩ := hlive a (List.mem_cons_self _ _)
      obtain ⟨h1, e1, fr1, l1, n1⟩ := mem_free_live h a _ hb
      have har : a ≠ r := by
        intro e; rw [e, hr] at hb; simp at hb
      have haa : a ≠ arr := by
        intro e; rw [e, ha] at hb; simp at hb
      have hnd' := List.nodup_cons.mp hnd
      obtain ⟨h2, e2, fr2, l2, n2⟩ := ih (done ++ [a]) h1 k
        (by rw [hws]; simp) (by simp only [List.length_cons] at hk; omega) hnum
        (by rw [l1, if_neg (fun e => har e.symm)]; exact hr)
        (by rw [l1, if_neg (fun e => haa e.symm)]; exact ha)
        (by
          intro x hx
          obtain ⟨bx, hbx⟩ := hlive x (List.mem_cons_of_mem _ hx)
          have hxa : x ≠ a := fun e => hnd'.1 (e ▸ hx)
          exact ⟨bx, by rw [l1, if_neg hxa]; exact hbx⟩)
        hnd'.2
      refine ⟨h2, ?_, ?_, ?_, ?_⟩
      · have hslot : Mem.read_slot h (.addr arr) (done.length : Int) = .ok (.addr a) := by
          simp only [Mem.read_slot, ha, Int.natCast_nonneg, if_true, Int.toNat_natCast, hws,
            getElem?_slots]
        simp only [Mem.free_words, mem_read_record h r size num _ hr, hi, if_true, hslot, e1]
        have hcast : ((done.length : Int) + 1) = ((done ++ [a]).length : Int) := by
          simp
        rw [hcast]
        exact e2
      · rw [fr2, fr1]; simp
      · intro x
        rw [l2, l1]
        by_cases hxt : x ∈ t
        · simp [hxt]
        · by_cases hxa : x = a
          · simp [hxa]
          · simp [hxt, hxa]
      · rw [n2, n1]

theorem mem_free_sentence_struct (h0 h : Mem.heap) (r arr : Nat) (size num : Int)
    (ws : List Nat) (words : List (List Char)) (rest : List Mem.ptr)
    (ho : Mem.owns h0 h r arr size num ws words rest []) :
    ∃ h2, Mem.free_sentence_struct h (.addr r) = .ok h2 ∧
      h2.frees = h0.frees ++ (ws ++ [arr, r]) ∧
      (∀ a, h0.cells.length ≤ a → Mem.lookup h2 a = none) ∧
      (∀ a, a < h0.cells.length → Mem.lookup h2 a = Mem.lookup h0 a) ∧
      h2.cells.length = h.cells.length := by
  have hcnt := ho.count
  have hlive : ∀ a ∈ ws, ∃ b, Mem.lookup h a = some (.chars b) := by
    intro a ha
    obtain ⟨w, hw⟩ := mem_strings_live h ws words ho.strings a ha
    exact ⟨_, hw⟩
  have hra : r ≠ arr := by
    intro e
    have h1 := ho.record_block
    rw [e, ho.array_block] at h1
    simp at h1
  have hwr : r ∉ ws := by
    intro hm
    obtain ⟨b, hb⟩ := hlive r hm
    rw [ho.record_block] at hb
    simp at hb
  have hwa : arr ∉ ws := by
    intro hm
    obtain ⟨b, hb⟩ := hlive arr hm
    rw [ho.array_block] at hb
    simp at hb
  obtain ⟨h1, e1, fr1, l1, n1⟩ := mem_free_words r arr size num rest ws ws [] h
    (num.toNat + 1) rfl (by omega) hcnt ho.record_block ho.array_block hlive ho.distinct
  have hr1 : Mem.lookup h1 r = some (.record size num (.addr arr)) := by
    rw [l1, if_neg hwr]; exact ho.record_block
  have ha1 : Mem.lookup h1 arr = some (.slots (ws.map .addr ++ rest)) := by
    rw [l1, if_neg hwa]; exact ho.array_block
  obtain ⟨h2, e2, fr2, l2, n2⟩ := mem_free_live h1 arr _ ha1
  have hr2 : Mem.lookup h2 r = some (.record size num (.addr arr)) := by
    rw [l2, if_neg hra]; exact hr1
  obtain ⟨h3, e3, fr3, l3, n3⟩ := mem_free_live h2 r _ hr2
  have hfinal : ∀ x, Mem.lookup h3 x =
      if x = r ∨ x = arr ∨ x ∈ ws then none else Mem.lookup h x := by
    intro x
    rw [l3, l2, l1]
    by_cases hxr : x = r
    · simp [hxr]
    · by_cases hxa : x = arr
      · simp [hxa]
      · simp [hxr, hxa]
  refine ⟨h3, ?_, ?_, ?_, ?_, ?_⟩
  · have e1' : Mem.free_words (.addr r) (num.toNat + 1) h 0 = .ok h1 := by
      simpa using e1
    simp only [Mem.free_sentence_struct, mem_read_record h r size num _ ho.record_block, e1',
      mem_read_record h1 r size num _ hr1, e2, e3]
  · rw [fr3, fr2, fr1, ho.frees_eq]
    simp
  · intro a hb
    rw [hfinal]
    by_cases hx : a = r ∨ a = arr ∨ a ∈ ws
    · rw [if_pos hx]
    · rw [if_neg hx]
      by_contra hlv
      rcases ho.no_other a hb hlv with h' | h' | h' | h'
      · exact hx (Or.inl h')
      · exact hx (Or.inr (Or.inl h'))
      · exact hx (Or.inr (Or.inr h'))
      · simp at h'
  · intro a ha
    rw [hfinal]
    have b1 := ho.fresh.1
    have b2 := ho.fresh.2.1
    have b3 := ho.fresh.2.2
    rw [if_neg]
    · exact ho.old a ha
    · rintro (h' | h' | h')
      · omega
      · omega
      · have := b3 a h'; omega
  · rw [n3, n2, n1]

/-- C11. Destruction releases everything exactly once. Run on any heap `h0`,
with `realloc` moving the array or not as `moves` says,
`allocate_sentence_dynamically` returns a record `r` whose count and capacity
are those of the collection `d`, whose array `arr` holds in its first
`num_words` slots the addresses `ws` of the buffers of the tokens of `d`, and
the blocks live among those allocated since `h0` are exactly these buffers, the
array and the record. `free_sentence_struct` on it returns normally (no block
is passed to `free` twice or after its release); it calls `free` on the buffers
in slot order, then on the array, then on the record, all distinct; afterwards
no block allocated since `h0` is live and the blocks of `h0` are untouched. -/
theorem C11_destruction_releases_everything_once (moves : Nat → Bool) (h0 : Mem.heap)
    (s : List Char) :
    ∃ (r arr : Nat) (ws : List Nat) (rest : List Mem.ptr) (h1 h2 : Mem.heap)
      (d : sentence_t) (words : List (List Char)),
      Mem.allocate_sentence_dynamically moves h0 (some s) = .ok (.addr r, h1) ∧
      allocate_sentence_dynamically (some s) = .ok d ∧
      Mem.lookup h1 r = some (.record d.sentence_size d.num_words (.addr arr)) ∧
      Mem.lookup h1 arr = some (.slots (ws.map .addr ++ rest)) ∧
      (ws.length : Int) = d.num_words ∧
      tokens d = words.map some ∧
      List.Forall₂ (fun a w => Mem.lookup h1 a = some (.chars (w ++ [NUL]))) ws words ∧
      (∀ a, h0.cells.length ≤ a → (Mem.lookup h1 a ≠ none ↔ a ∈ ws ++ [arr, r])) ∧
      h1.frees = h0.frees ∧
      Mem.free_sentence_struct h1 (.addr r) = .ok h2 ∧
      h2.frees = h0.frees ++ (ws ++ [arr, r]) ∧
      (ws ++ [arr, r]).Nodup ∧
      (∀ a, h0.cells.length ≤ a → Mem.lookup h2 a = none) ∧
      (∀ a, a < h0.cells.length → Mem.lookup h2 a = Mem.lookup h0 a) := by
  obtain ⟨h1, arr, ws, rest, e1, o1⟩ := mem_allocate moves h0 s
  obtain ⟨h2, e2, fr2, l2, old2, _⟩ := mem_free_sentence_struct h0 h1 _ arr _ _ ws _ rest o1
  obtain ⟨d, a1, a2, _, a4⟩ := allocate_tokens s
  have hlive : ∀ a ∈ ws, ∃ w, Mem.lookup h1 a = some (.chars (w ++ [NUL])) :=
    mem_strings_live h1 ws _ o1.strings
  have hra : h0.cells.length ≠ arr := by
    intro e
    have h' := o1.record_block
    rw [e, o1.array_block] at h'
    simp at h'
  have hwr : h0.cells.length ∉ ws := by
    intro hm
    obtain ⟨b, hb⟩ := hlive _ hm
    rw [o1.record_block] at hb
    simp at hb
  have hwa : arr ∉ ws := by
    intro hm
    obtain ⟨b, hb⟩ := hlive arr hm
    rw [o1.array_block] at hb
    simp at hb
  refine ⟨h0.cells.length, arr, ws, rest, h1, h2, d, c_words s, e1, a1, ?_, o1.array_block,
    ?_, a4, o1.strings, ?_, o1.frees_eq, e2, fr2, ?_, l2, old2⟩
  · rw [a2]; exact o1.record_block
  · rw [a2]; exact o1.count
  · intro a hb
    constructor
    · intro hl
      rcases o1.no_other a hb hl with h' | h' | h' | h'
      · simp [h']
      · simp [h']
      · simp [h']
      · simp at h'
    · intro hm
      simp only [List.mem_append, List.mem_cons, List.mem_singleton, List.not_mem_nil,
        or_false] at hm
      rcases hm with h' | h' | h'
      · obtain ⟨w, hw⟩ := hlive a h'
        rw [hw]; simp
      · rw [h', o1.array_block]; simp
      · rw [h', o1.record_block]; simp
  · rw [List.nodup_append]
    refine ⟨o1.distinct, ?_, ?_⟩
    · simp [hra.symm]
    · intro a ha hb
      simp only [List.mem_cons, List.mem_singleton, List.not_mem_nil, or_false] at hb
      rcases hb with h' | h'
      · exact hwa (h' ▸ ha)
      · exact hwr (h' ▸ ha)

theorem C11_witness :
    (∃ h1 h2, Mem.allocate_sentence_dynamically (fun _ => true) ⟨[], []⟩
          (some "a b c d e f".toList) = .ok (.addr 0, h1) ∧
        Mem.free_sentence_struct h1 (.addr 0) = .ok h2 ∧
        h2.frees = [2, 3, 4, 5, 6, 7, 8, 0] ∧ h2.cells = List.replicate 9 none ∧
        Mem.free_sentence_struct h2 (.addr 0) = .error failure.undefined_behaviour) ∧
    (∃ h1 h2, Mem.allocate_sentence_dynamically (fun _ => false)
          ⟨[none, some (.chars [])], [0]⟩ (some "a b c d e f".toList) = .ok (.addr 2, h1) ∧
        Mem.free_sentence_struct h1 (.addr 2) = .ok h2 ∧
        h2.frees = [0, 4, 5, 6, 7, 8, 9, 3, 2] ∧
        h2.cells = [none, some (.chars [])] ++ List.replicate 8 none) ∧
    (∃ (r : Nat) (h1 h2 : Mem.heap),
        Mem.allocate_sentence_dynamically (fun _ => true) ⟨[], []⟩
          (some "a b c d e f".toList) = .ok (.addr r, h1) ∧
        Mem.free_sentence_struct h1 (.addr r) = .ok h2 ∧
        ∀ a, Mem.lookup h2 a = none) := by
  refine ⟨⟨_, _, rfl, rfl, rfl, rfl, rfl⟩, ⟨_, _, rfl, rfl, rfl, rfl⟩, ?_⟩
  obtain ⟨r, arr, ws, rest, h1, h2, d, words, e1, _, _, _, _, _, _, _, _, e2, _, _, l2, _⟩ :=
    C11_destruction_releases_everything_once (fun _ => true) ⟨[], []⟩ "a b c d e f".toList
  exact ⟨r, h1, h2, e1, e2, fun a => l2 a (Nat.zero_le a)⟩

end DynamicSentence
